import Mathlib

/-!
Verification development for the styberg-news repository.

This file shallowly embeds the three data-transformation routines the
specification covers:

* the `get-news-articles` IPC handler of `main.js` (the spec's
  DirectoryArticleGrouper),
* the `get-announcements` IPC handler of `main.js` (the spec's
  AnnouncementGrouper),
* `processForecastData` of `src/components/Weather.js` (the spec's
  ForecastBucketer),

together with the JavaScript primitives they rely on (`path.extname`,
`path.basename(file, ext)`, `String.prototype.trim`, `String.prototype.length`,
`String.prototype.toLowerCase`, base64 encoding of byte buffers, the
`mime-types` lookup table restricted to the extensions this code recognizes,
and the key-iteration order of plain JavaScript objects).

Modelling conventions:

* JavaScript strings are modelled by Lean `String`; all string data handled by
  the routines under consideration is ASCII, where code-unit-wise operations
  (comparison, lowercasing, length) of JavaScript coincide with the
  codepoint-wise Lean operations used here.  String comparison `a <= b` of
  JavaScript (code-unit lexicographic) is modelled by Lean's lexicographic
  `String` order.
* JavaScript numbers occurring as temperatures are modelled by `Rat`; the
  only operations performed on them are order comparisons, for which `Rat`
  is a faithful model of the finite doubles.  The sentinels `Infinity` and
  `-Infinity` used by the min/max scan are modelled by a dedicated type
  `JsNum` with explicit top and bottom elements.
* A plain JavaScript object used as a dictionary is modelled by `JsObj`:
  an insertion-ordered association list.  Its `for...in` / `Object.keys`
  iteration order lists canonical array-index keys first in ascending
  numeric order and all remaining keys in insertion order, as ECMAScript
  prescribes for ordinary own property enumeration.  (Prototype-chain
  effects of exotic keys such as "constructor" are outside the model.)
* Filesystem access is a record of three partial functions (directory
  listing, text read, byte read), `none` meaning the operation throws.
  Reads are keyed by the entry name; the enclosing directory prefix added
  by `path.join` is constant and dropped.  A thrown error is modelled by
  `Except`, and each handler's `try/catch` converts it to `[]`.
* `new Date(ms).toISOString().split('T')[0]` is modelled by a proleptic
  Gregorian civil-from-days computation; ECMAScript's `Date` raises on
  timestamps beyond ±8.64e15 ms, the model instead extends the calendar,
  which is immaterial for the properties proved here.
-/

/-! ## JavaScript string primitives -/

/-- ASCII lowercasing of one character; models `String.prototype.toLowerCase`
on the ASCII data handled here. -/
def toLowerChar (c : Char) : Char :=
  if 'A' ≤ c ∧ c ≤ 'Z' then Char.ofNat (c.toNat + 32) else c

/-- Lowercase every character of a character list. -/
def toLowerList (cs : List Char) : List Char := cs.map toLowerChar

/-- Lowercase a string, character by character. -/
def toLowerStr (s : String) : String := ⟨toLowerList s.data⟩

/-- The WhiteSpace and LineTerminator code points removed by
`String.prototype.trim`. -/
def jsWhitespace (c : Char) : Bool :=
  [9, 10, 11, 12, 13, 32, 160, 0x1680, 0x2000, 0x2001, 0x2002, 0x2003, 0x2004,
    0x2005, 0x2006, 0x2007, 0x2008, 0x2009, 0x200A, 0x2028, 0x2029, 0x202F,
    0x205F, 0x3000, 0xFEFF].contains c.toNat

/-- Remove leading and trailing JavaScript whitespace from a character list. -/
def trimChars (cs : List Char) : List Char :=
  ((cs.dropWhile jsWhitespace).reverse.dropWhile jsWhitespace).reverse

/-- Model of `String.prototype.trim`. -/
def jsTrim (s : String) : String := ⟨trimChars s.data⟩

/-- Model of `String.prototype.length` (UTF-16 code units). -/
def utf16Len (s : String) : Nat :=
  s.data.foldl (fun n c => n + (if c.toNat < 65536 then 1 else 2)) 0

/-- Model of Node's `path.extname` on a bare directory entry (no separators):
the suffix starting at the last dot, empty when there is no dot, when the
only dot is the leading character (dotfile), and for the special name `..`. -/
def extnameChars (cs : List Char) : List Char :=
  let rev := cs.reverse
  let after := rev.takeWhile (fun c => !(c == '.'))
  if after.length = rev.length then []
  else if rev.length ≤ after.length + 1 then []
  else if cs = ['.', '.'] then []
  else '.' :: after.reverse

/-- String wrapper of `extnameChars`. -/
def extnameStr (s : String) : String := ⟨extnameChars s.data⟩

/-- Model of Node's `path.basename(file, ext)` on a bare entry: strips `ext`
when it is a nonempty proper case-sensitive suffix of the name. -/
def jsBasenameChars (cs ext : List Char) : List Char :=
  if ext ≠ [] ∧ ext ≠ cs ∧ ext.isSuffixOf cs
  then cs.take (cs.length - ext.length) else cs

/-- String wrapper of `jsBasenameChars`. -/
def jsBasenameStr (s ext : String) : String := ⟨jsBasenameChars s.data ext.data⟩

/-- The stem computation of `main.js` lines 230-231:
`path.basename(file, path.extname(file).toLowerCase())`. -/
def stemOf (file : String) : String :=
  jsBasenameStr file (toLowerStr (extnameStr file))

/-- Lexicographic `<` on character lists: the shorter list is smaller when it
is a proper prefix; otherwise the first differing position decides.  This is
JavaScript's relational comparison of strings over the ASCII data handled
here. -/
def lexLt : List Char → List Char → Bool
  | [], [] => false
  | [], _ :: _ => true
  | _ :: _, [] => false
  | a :: as, b :: bs =>
    if a < b then true else if b < a then false else lexLt as bs

/-- JavaScript `s < t` on strings. -/
def strLtB (s t : String) : Bool := lexLt s.data t.data

/-- JavaScript `s <= t` on strings, which is the negation of `t < s`. -/
def strLeB (s t : String) : Bool := !strLtB t s

/-- `strLeB` as a relation, for use as a sort order. -/
def strLe (s t : String) : Prop := strLeB s t = true

instance : DecidableRel strLe := fun s t => by
  unfold strLe; infer_instance

/-! ## JavaScript object (dictionary) model -/

/-- Decimal digit test. -/
def isDigitChar (c : Char) : Bool := '0' ≤ c && c ≤ '9'

/-- Numeric value of an all-digit key. -/
def keyNum (s : String) : Nat :=
  s.data.foldl (fun a c => a * 10 + (c.toNat - 48)) 0

/-- Whether a string is a canonical array index in the ECMAScript sense:
the canonical decimal representation of an integer in `[0, 2^32 - 2]`. -/
def isArrayIndexKey (s : String) : Bool :=
  !s.data.isEmpty && s.data.all isDigitChar
    && (s == "0" || !(s.data.head? == some '0'))
    && decide (keyNum s ≤ 4294967294)

/-- Total order on strings that coincides with ascending numeric order on
canonical array-index keys (where `keyNum` is injective); used to model the
enumeration order of integer-like keys. -/
def idxLe (a b : String) : Prop :=
  keyNum a < keyNum b ∨ (keyNum a = keyNum b ∧ strLe a b)

instance : DecidableRel idxLe := fun a b => by
  unfold idxLe; infer_instance

/-- A plain JavaScript object used as a string-keyed dictionary: an
insertion-ordered association list with unique keys. -/
structure JsObj (α : Type) where
  entries : List (String × α)
deriving DecidableEq

/-- The empty object literal. -/
def JsObj.empty {α : Type} : JsObj α := ⟨[]⟩

/-- Property read, `m[k]`. -/
def JsObj.lookup {α : Type} (m : JsObj α) (k : String) : Option α :=
  m.entries.lookup k

/-- Property write, `m[k] = v`: updates in place when the key exists,
appends otherwise. -/
def JsObj.set {α : Type} (m : JsObj α) (k : String) (v : α) : JsObj α :=
  if (m.lookup k).isSome
  then ⟨m.entries.map (fun p => if p.1 == k then (p.1, v) else p)⟩
  else ⟨m.entries ++ [(k, v)]⟩

/-- The keys in insertion order. -/
def JsObj.keysOf {α : Type} (m : JsObj α) : List String :=
  m.entries.map Prod.fst

/-- The own enumerable key order used by `for...in` and `Object.keys`:
canonical array-index keys first in ascending numeric order, then the
remaining keys in insertion order. -/
def JsObj.keysInOrder {α : Type} (m : JsObj α) : List String :=
  List.insertionSort idxLe (m.keysOf.filter isArrayIndexKey)
    ++ m.keysOf.filter (fun k => !isArrayIndexKey k)

/-! ## JavaScript numbers with infinities -/

/-- A JavaScript number as used by the forecast min/max scan: a finite value
or one of the two infinities (NaN never arises here). -/
inductive JsNum where
  | negInf : JsNum
  | num : Rat → JsNum
  | posInf : JsNum
deriving DecidableEq

/-- JavaScript `<` on `JsNum`. -/
def jsLt : JsNum → JsNum → Bool
  | JsNum.negInf, JsNum.negInf => false
  | JsNum.negInf, _ => true
  | JsNum.num _, JsNum.negInf => false
  | JsNum.num a, JsNum.num b => decide (a < b)
  | JsNum.num _, JsNum.posInf => true
  | JsNum.posInf, _ => false

/-! ## Base64 and data URIs -/

/-- The standard base64 alphabet used by `Buffer.prototype.toString('base64')`. -/
def b64Alphabet : List Char :=
  "ABCDEFGHIJKLMNOPQRSTUVWXYZabcdefghijklmnopqrstuvwxyz0123456789+/".data

/-- Character of one 6-bit group. -/
def b64c (n : Nat) : Char := b64Alphabet.getD n 'A'

/-- Standard base64 with padding over a byte list (each entry `< 256`). -/
def base64Encode : List Nat → String
  | [] => ""
  | [a] => ⟨[b64c (a / 4), b64c (a % 4 * 16), '=', '=']⟩
  | [a, b] => ⟨[b64c (a / 4), b64c (a % 4 * 16 + b / 16), b64c (b % 16 * 4), '=']⟩
  | a :: b :: c :: rest =>
      String.mk [b64c (a / 4), b64c (a % 4 * 16 + b / 16),
        b64c (b % 16 * 4 + c / 64), b64c (c % 64)] ++ base64Encode rest

/-- The `mime-types` lookup (`mime.lookup(file)`) restricted to the extension
classes the news scan can feed it; unknown extensions yield `none`, which the
caller replaces by `application/octet-stream`. -/
def mimeLookup (file : String) : Option String :=
  match toLowerStr (extnameStr file) with
  | ".jpg" => some "image/jpeg"
  | ".jpeg" => some "image/jpeg"
  | ".png" => some "image/png"
  | ".gif" => some "image/gif"
  | ".bmp" => some "image/bmp"
  | ".txt" => some "text/plain"
  | _ => none

/-- The data-URI built at `main.js` line 252:
`data:<mime>;base64,<bytes>` with the octet-stream fallback. -/
def newsImageData (file : String) (bytes : List Nat) : String :=
  "data:" ++ ((mimeLookup file).getD "application/octet-stream")
    ++ ";base64," ++ base64Encode bytes

/-! ## Filesystem and the news / announcements handlers (`main.js`) -/

/-- The filesystem capability a directory scan uses.  `none` models a thrown
error (missing directory, unreadable file). -/
structure FileSystem where
  listing : Option (List String)
  readText : String → Option String
  readBytes : String → Option (List Nat)

/-- One value of the `fileGroups` dictionary: at most one text and one image
filename per stem. -/
structure FileGroup where
  textFile : Option String := none
  imageFile : Option String := none
deriving DecidableEq

/-- An emitted news record (`articles.push` at `main.js` lines 261-286). -/
structure Article where
  type : String
  title : String
  description : String
  imagePath : Option String
deriving DecidableEq

/-- The recognized image extensions (`main.js` line 239). -/
def imageExts : List String := [".jpg", ".jpeg", ".png", ".gif", ".bmp"]

/-- One iteration of the grouping loop (`main.js` lines 229-242): compute the
lowercased extension and the stem, ensure the stem's group exists, and record
the file in its extension class (later files overwrite earlier ones). -/
def groupStepN (m : JsObj FileGroup) (file : String) : JsObj FileGroup :=
  let ext := toLowerStr (extnameStr file)
  let base := stemOf file
  let g := (m.lookup base).getD {}
  if ext == ".txt" then m.set base { g with textFile := some file }
  else if imageExts.contains ext then m.set base { g with imageFile := some file }
  else m.set base g

/-- The full `fileGroups` dictionary for a listing. -/
def newsGroups (files : List String) : JsObj FileGroup :=
  files.foldl groupStepN JsObj.empty

/-- The `for...in` traversal of `fileGroups` as a list of key/group pairs. -/
def groupList (m : JsObj FileGroup) : List (String × FileGroup) :=
  m.keysInOrder.map (fun b => (b, (m.lookup b).getD {}))

/-- The body of the emission loop (`main.js` lines 244-288) for one group:
read and encode the image first when present, then emit according to which
files the group holds.  A failing read throws (`Except.error`). -/
def emitGroup (fs : FileSystem) (base : String) (g : FileGroup) :
    Except Unit (Option Article) :=
  match g.imageFile with
  | some imgF =>
    match fs.readBytes imgF with
    | none => Except.error ()
    | some bs =>
      let imageData := newsImageData imgF bs
      match g.textFile with
      | some txtF =>
        match fs.readText txtF with
        | none => Except.error ()
        | some content =>
          Except.ok (some
            { type := "article", title := base,
              description := jsTrim content, imagePath := some imageData })
      | none =>
          Except.ok (some
            { type := "article", title := base,
              description := "", imagePath := some imageData })
  | none =>
    match g.textFile with
    | some txtF =>
      match fs.readText txtF with
      | none => Except.error ()
      | some content =>
        Except.ok (some
          { type := "article", title := base,
            description := jsTrim content, imagePath := none })
    | none => Except.ok none

/-- The emission loop over all groups, accumulating pushed articles in order;
the first thrown read aborts the whole scan. -/
def emitArticles (fs : FileSystem) : List (String × FileGroup) → Except Unit (List Article)
  | [] => Except.ok []
  | (b, g) :: rest =>
    match emitGroup fs b g with
    | Except.error e => Except.error e
    | Except.ok a? =>
      match emitArticles fs rest with
      | Except.error e => Except.error e
      | Except.ok l => Except.ok (match a? with | some a => a :: l | none => l)

/-- The `get-news-articles` handler body before its `catch`. -/
def getNewsArticlesE (fs : FileSystem) : Except Unit (List Article) :=
  match fs.listing with
  | none => Except.error ()
  | some files => emitArticles fs (groupList (newsGroups files))

/-- The `get-news-articles` handler (`main.js` lines 222-294): any thrown
error is caught, logged and converted to the empty list. -/
def getNewsArticles (fs : FileSystem) : List Article :=
  match getNewsArticlesE fs with
  | Except.ok l => l
  | Except.error _ => []

/-- An emitted announcement record. -/
structure Ann where
  content : String
deriving DecidableEq

/-- The announcement scan loop (`main.js` lines 302-313): read each `.txt`
entry, trim it, and keep it when the trimmed length is in `[1, 100]`. -/
def annLoop (fs : FileSystem) : List String → Except Unit (List Ann)
  | [] => Except.ok []
  | f :: rest =>
    if toLowerStr (extnameStr f) == ".txt" then
      match fs.readText f with
      | none => Except.error ()
      | some content =>
        let t := jsTrim content
        match annLoop fs rest with
        | Except.error e => Except.error e
        | Except.ok l =>
          Except.ok (if 0 < utf16Len t ∧ utf16Len t ≤ 100 then ⟨t⟩ :: l else l)
    else annLoop fs rest

/-- The `get-announcements` handler body before its `catch`. -/
def getAnnouncementsE (fs : FileSystem) : Except Unit (List Ann) :=
  match fs.listing with
  | none => Except.error ()
  | some files => annLoop fs files

/-- The `get-announcements` handler (`main.js` lines 297-320): any thrown
error is caught, logged and converted to the empty list. -/
def getAnnouncements (fs : FileSystem) : List Ann :=
  match getAnnouncementsE fs with
  | Except.ok l => l
  | Except.error _ => []

/-! ## Forecast bucketing (`Weather.js` `processForecastData`) -/

/-- One already-parsed forecast sample: `item.dt`, `item.main.temp`,
`item.weather[0].main`. -/
structure ForecastItem where
  dt : Int
  temp : Rat
  cond : String
deriving DecidableEq

/-- One output record of `processForecastData`. -/
structure DayForecast where
  date : String
  temp_min : JsNum
  temp_max : JsNum
  condition : Option String
deriving DecidableEq

/-- Civil date (year, month, day) of a day number relative to 1970-01-01,
proleptic Gregorian; the classic era-based algorithm. -/
def civilFromDays (z0 : Int) : Int × Nat × Nat :=
  let z := z0 + 719468
  let era := Int.fdiv z 146097
  let doe := (z - era * 146097).toNat
  let yoe := (doe - doe / 1460 + doe / 36524 - doe / 146096) / 365
  let y := (yoe : Int) + era * 400
  let doy := doe - (365 * yoe + yoe / 4 - yoe / 100)
  let mp := (5 * doy + 2) / 153
  let d := doy - (153 * mp + 2) / 5 + 1
  let m := if mp < 10 then mp + 3 else mp - 9
  (if m ≤ 2 then y + 1 else y, m, d)

/-- Zero-pad a month or day to two digits. -/
def pad2 (n : Nat) : String :=
  if n < 10 then "0" ++ toString n else toString n

/-- Zero-pad a year to four digits. -/
def pad4 (n : Nat) : String :=
  if n < 10 then "000" ++ toString n
  else if n < 100 then "00" ++ toString n
  else if n < 1000 then "0" ++ toString n
  else toString n

/-- Zero-pad an expanded year to six digits. -/
def pad6 (n : Nat) : String :=
  if n < 100000 then pad4 (n / 100) ++ toString (n % 100 / 10) ++ toString (n % 10)
  else toString n

/-- Year formatting of `toISOString`: four digits in `[0, 9999]`, otherwise
the expanded signed six-digit form. -/
def yearStr (y : Int) : String :=
  if 0 ≤ y ∧ y ≤ 9999 then pad4 y.toNat
  else if y < 0 then "-" ++ pad6 (-y).toNat
  else "+" ++ pad6 y.toNat

/-- The date key of a sample:
`new Date(item.dt * 1000).toISOString().split('T')[0]`. -/
def dateStrOf (dt : Int) : String :=
  let days := Int.fdiv (dt * 1000) 86400000
  let c := civilFromDays days
  yearStr c.1 ++ "-" ++ pad2 c.2.1 ++ "-" ++ pad2 c.2.2

/-- One iteration of the bucketing loop (`Weather.js` lines 225-232): create
the date's bucket if absent, then push the sample. -/
def groupStepF (m : JsObj (List ForecastItem)) (it : ForecastItem) :
    JsObj (List ForecastItem) :=
  let d := dateStrOf it.dt
  match m.lookup d with
  | some l => m.set d (l ++ [it])
  | none => m.set d [it]

/-- Accumulator of the per-bucket `forEach` (`Weather.js` lines 243-259):
running minimum and maximum temperature and the condition occurrence counts. -/
structure DayAcc where
  minT : JsNum
  maxT : JsNum
  counts : JsObj Nat

/-- The initial accumulator: `Infinity`, `-Infinity`, `{}`. -/
def dayAccInit : DayAcc := ⟨JsNum.posInf, JsNum.negInf, JsObj.empty⟩

/-- One step of the per-bucket `forEach`. -/
def dayStep (acc : DayAcc) (it : ForecastItem) : DayAcc :=
  { minT := if jsLt (JsNum.num it.temp) acc.minT then JsNum.num it.temp else acc.minT
    maxT := if jsLt acc.maxT (JsNum.num it.temp) then JsNum.num it.temp else acc.maxT
    counts :=
      match acc.counts.lookup it.cond with
      | some c => acc.counts.set it.cond (c + 1)
      | none => acc.counts.set it.cond 1 }

/-- The minimum-tracking projection of one `forEach` step. -/
def minStep (a : JsNum) (it : ForecastItem) : JsNum :=
  if jsLt (JsNum.num it.temp) a then JsNum.num it.temp else a

/-- The maximum-tracking projection of one `forEach` step. -/
def maxStep (a : JsNum) (it : ForecastItem) : JsNum :=
  if jsLt a (JsNum.num it.temp) then JsNum.num it.temp else a

/-- The condition-count projection of one `forEach` step. -/
def countStep (c : JsObj Nat) (it : ForecastItem) : JsObj Nat :=
  match c.lookup it.cond with
  | some n => c.set it.cond (n + 1)
  | none => c.set it.cond 1

/-- The per-bucket statistics of a day's samples. -/
def dayStats (items : List ForecastItem) : DayAcc :=
  items.foldl dayStep dayAccInit

/-- The `for...in` traversal of `conditionCounts` as key/count pairs. -/
def pairsOf (m : JsObj Nat) : List (String × Nat) :=
  m.keysInOrder.map (fun k => (k, (m.lookup k).getD 0))

/-- The most-common-condition loop (`Weather.js` lines 262-269): keep the
first key whose count strictly exceeds the running maximum. -/
def bestLoop : List (String × Nat) → Nat → Option String → Option String
  | [], _, best => best
  | (k, c) :: rest, maxCount, best =>
    if maxCount < c then bestLoop rest c (some k) else bestLoop rest maxCount best

/-- `mostCommonCondition` computed from a count dictionary. -/
def bestCondition (m : JsObj Nat) : Option String :=
  bestLoop (pairsOf m) 0 none

/-- The condition chosen for a bucket's samples. -/
def mostCommonCondition (items : List ForecastItem) : Option String :=
  bestCondition (dayStats items).counts

/-- `processForecastData` (`Weather.js` lines 222-280) with the evaluation
moment's UTC date string passed explicitly: bucket the samples by UTC date,
keep the date keys at or after today, sort them, take the first four, and
derive each selected bucket's record. -/
def processForecastData (todayStr : String) (items : List ForecastItem) :
    List DayForecast :=
  let grouped := items.foldl groupStepF JsObj.empty
  let dates := List.insertionSort strLe
    ((grouped.keysInOrder).filter (fun d => strLeB todayStr d))
  (dates.take 4).map (fun date =>
    let dayData := (grouped.lookup date).getD []
    let acc := dayStats dayData
    { date := date, temp_min := acc.minT, temp_max := acc.maxT,
      condition := bestCondition acc.counts })

/-! ## Specification-side auxiliary definitions -/

/-- First-occurrence deduplication of a list of keys: the insertion order of
a dictionary built by successive writes. -/
def dedupKeepFirst (l : List String) : List String :=
  l.foldl (fun acc d => if d ∈ acc then acc else acc ++ [d]) []

/-- Whether a directory entry carries a recognized (text or image) extension,
matched case-insensitively. -/
def isRecognizedFile (f : String) : Bool :=
  toLowerStr (extnameStr f) == ".txt" || imageExts.contains (toLowerStr (extnameStr f))

/-- The stems of a listing in JavaScript object enumeration order, built
directly from the listing: canonical array-index stems first in ascending
numeric order, then the remaining stems in order of first occurrence. -/
def orderedStems (files : List String) : List String :=
  List.insertionSort idxLe ((dedupKeepFirst (files.map stemOf)).filter isArrayIndexKey)
    ++ (dedupKeepFirst (files.map stemOf)).filter (fun k => !isArrayIndexKey k)

/-- A file group references a file whose read fails on the given filesystem. -/
def groupReadFails (fs : FileSystem) (g : FileGroup) : Prop :=
  (∃ f, g.imageFile = some f ∧ fs.readBytes f = none) ∨
    (∃ f, g.textFile = some f ∧ fs.readText f = none)

/-- Decidable check that every file a group references can be read. -/
def groupReadsOk (fs : FileSystem) (g : FileGroup) : Bool :=
  (match g.textFile with
   | some f => (fs.readText f).isSome
   | none => true)
  && (match g.imageFile with
      | some f => (fs.readBytes f).isSome
      | none => true)

/-- Helper for `firstToReachMax`: scan the conditions in order, tracking the
samples seen so far, and return the first condition whose running occurrence
count reaches `M`. -/
def firstToReachMaxAux (M : Nat) : List String → List String → Option String
  | [], _ => none
  | c :: rest, seen =>
    if ((seen ++ [c]).filter (fun x => x == c)).length = M then some c
    else firstToReachMaxAux M rest (seen ++ [c])

/-- Specification-side tie-break rule, written to follow the claim's words
"the first condition to reach the maximum count while iterating the bucket's
samples in order"; used only to compare against the behavior of the code's
`mostCommonCondition`. -/
def firstToReachMax (conds : List String) : Option String :=
  firstToReachMaxAux
    ((conds.map (fun c => (conds.filter (fun x => x == c)).length)).foldl max 0)
    conds []

/-- The announcements a directory listing should yield, stated directly:
the trimmed content of each `.txt` entry whose trimmed length lies in
`[1, 100]`, in listing order. -/
def announcementsSpec (fs : FileSystem) (files : List String) : List Ann :=
  files.filterMap (fun f =>
    if toLowerStr (extnameStr f) == ".txt" then
      match fs.readText f with
      | some content =>
        if 0 < utf16Len (jsTrim content) ∧ utf16Len (jsTrim content) ≤ 100
        then some ⟨jsTrim content⟩ else none
      | none => none
    else none)

/-! ## Concrete inputs used by counterexamples and witnesses -/

/-- A directory holding a single text file whose extension is upper-case. -/
def fsUpperExt : FileSystem :=
  { listing := some ["A.TXT"]
    readText := fun f => if f == "A.TXT" then some "hello" else none
    readBytes := fun _ => none }

/-- A directory whose listing puts a non-numeric stem before a numeric one. -/
def fsNumericStem : FileSystem :=
  { listing := some ["b.txt", "1.txt"]
    readText := fun f =>
      if f == "b.txt" then some "bee" else if f == "1.txt" then some "one" else none
    readBytes := fun _ => none }

/-- A filesystem whose directory listing fails. -/
def fsNoListing : FileSystem :=
  { listing := none, readText := fun _ => none, readBytes := fun _ => none }

/-- A filesystem that lists one text file but fails every read. -/
def fsBadRead : FileSystem :=
  { listing := some ["x.txt"], readText := fun _ => none, readBytes := fun _ => none }

/-- A string of exactly one hundred characters. -/
def hundredChars : String := ⟨List.replicate 100 'a'⟩

/-- A string of one hundred and one characters. -/
def hundredOneChars : String := ⟨List.replicate 101 'b'⟩

/-- An announcements directory exercising the length boundaries: blank
content, over-long content, exactly one hundred characters, and a non-text
entry. -/
def fsAnnounceDir : FileSystem :=
  { listing := some ["empty.txt", "long.txt", "exact.txt", "img.png"]
    readText := fun f =>
      if f == "empty.txt" then some "   "
      else if f == "long.txt" then some hundredOneChars
      else if f == "exact.txt" then some (" " ++ hundredChars ++ " ")
      else none
    readBytes := fun _ => none }

/-- A news directory mixing the three recognized group shapes - a stem with
text and image, a stem with only an image, a stem with only text - plus an
unrecognized entry. -/
def fsMixedDir : FileSystem :=
  { listing := some ["a.txt", "a.jpg", "z.png", "c.txt", "notes.pdf"]
    readText := fun f =>
      if f == "a.txt" then some "  hello  "
      else if f == "c.txt" then some " hi " else none
    readBytes := fun f =>
      if f == "a.jpg" then some [1, 2, 3]
      else if f == "z.png" then some [9] else none }

/-- A bucket of four samples on one day whose conditions are A, B, B, A:
both labels end with count two, B is the first to reach that count while
scanning, A is the first label in enumeration order holding it. -/
def tieItems : List ForecastItem :=
  [⟨0, 50, "A"⟩, ⟨3600, 40, "B"⟩, ⟨7200, 60, "B"⟩, ⟨10800, 55, "A"⟩]

/-- Two samples on consecutive days, used to instantiate universally
quantified forecast facts. -/
def twoDayItems : List ForecastItem :=
  [⟨0, 70, "Clear"⟩, ⟨86400, 60, "Rain"⟩]

/-! ## Order lemmas for the string comparator -/

theorem lexLt_asymm : ∀ (a b : List Char), lexLt a b = true → lexLt b a = false
  | [], [] => by simp [lexLt]
  | [], _ :: _ => by simp [lexLt]
  | _ :: _, [] => by simp [lexLt]
  | a :: as, b :: bs => by
    simp only [lexLt]
    by_cases hab : a < b
    · simp [hab, lt_asymm hab]
    · by_cases hba : b < a
      · simp [hab, hba]
      · simp only [hab, hba, if_false]
        exact lexLt_asymm as bs

theorem lexLt_conn : ∀ (a b : List Char),
    lexLt a b = false → lexLt b a = false → a = b
  | [], [] => by simp
  | [], _ :: _ => by simp [lexLt]
  | _ :: _, [] => by simp [lexLt]
  | a :: as, b :: bs => by
    simp only [lexLt]
    by_cases hab : a < b
    · simp [hab]
    · by_cases hba : b < a
      · simp [hab, hba]
      · simp only [hab, hba, if_false]
        intro h1 h2
        have hc : a = b := le_antisymm (not_lt.mp hba) (not_lt.mp hab)
        have := lexLt_conn as bs h1 h2
        rw [hc, this]

theorem lexLt_split : ∀ (c a b : List Char), lexLt c a = true →
    lexLt c b = true ∨ lexLt b a = true
  | [], [], _ => by simp [lexLt]
  | [], _ :: _, [] => by intro h; right; simp [lexLt]
  | [], _ :: _, _ :: _ => by intro h; left; simp [lexLt]
  | _ :: _, [], _ => by simp [lexLt]
  | _ :: _, _ :: _, [] => by intro h; right; simp [lexLt]
  | x :: xs, z :: zs, y :: ys => by
    simp only [lexLt]
    by_cases hxz : x < z
    · intro _
      by_cases hxy : x < y
      · left; simp [hxy]
      · right
        have hyz : y < z := lt_of_le_of_lt (not_lt.mp hxy) hxz
        simp [hyz]
    · by_cases hzx : z < x
      · simp [hxz, hzx]
      · simp only [hxz, hzx, if_false]
        intro h
        have hxe : x = z := le_antisymm (not_lt.mp hzx) (not_lt.mp hxz)
        by_cases hxy : x < y
        · left; simp [hxy]
        · by_cases hyx : y < x
          · right
            have : y < z := hxe ▸ hyx
            simp [this]
          · have hye : x = y := le_antisymm (not_lt.mp hyx) (not_lt.mp hxy)
            rcases lexLt_split xs zs ys h with h' | h'
            · left; simp [← hye, hxy, hyx, h', lt_irrefl]
            · right
              have h1 : ¬ y < z := by rw [← hxe, ← hye]; exact lt_irrefl x
              have h2 : ¬ z < y := h1 ∘ (by rw [← hxe, ← hye]; exact id)
              simp only [← hxe, ← hye, lt_irrefl, if_false]
              exact h'

theorem strLe_iff (s t : String) : strLe s t ↔ lexLt t.data s.data = false := by
  unfold strLe strLeB strLtB
  cases h : lexLt t.data s.data <;> simp

theorem strData_inj {s t : String} (h : s.data = t.data) : s = t := String.ext h

instance : IsTrans String strLe := by
  constructor
  intro a b c hab hbc
  rw [strLe_iff] at hab hbc ⊢
  by_contra hca
  have hca' : lexLt c.data a.data = true := by
    cases h : lexLt c.data a.data
    · exact absurd h hca
    · rfl
  rcases lexLt_split c.data a.data b.data hca' with h | h
  · rw [hbc] at h; exact Bool.noConfusion h
  · rw [hab] at h; exact Bool.noConfusion h

instance : IsTotal String strLe := by
  constructor
  intro a b
  rw [strLe_iff, strLe_iff]
  cases hab : lexLt a.data b.data
  · right; rfl
  · left
    exact lexLt_asymm a.data b.data hab

instance : IsAntisymm String strLe := by
  constructor
  intro a b hab hba
  rw [strLe_iff] at hab hba
  exact strData_inj (lexLt_conn a.data b.data hba hab)

/-! ## Dictionary lemmas -/

theorem lookup_cons_eq {α : Type} (k a : String) (b : α) (es : List (String × α)) :
    List.lookup k ((a, b) :: es) = if k = a then some b else List.lookup k es := by
  simp only [List.lookup]
  rcases h : k == a
  · simp [beq_eq_false_iff_ne.mp h]
  · simp [beq_iff_eq.mp h]

theorem lookup_append_single {α : Type} (es : List (String × α)) (k k' : String) (v : α) :
    List.lookup k' (es ++ [(k, v)]) =
      match List.lookup k' es with
      | some w => some w
      | none => if k' = k then some v else none := by
  induction es with
  | nil => simp [lookup_cons_eq]
  | cons p t ih =>
    rcases p with ⟨a, b⟩
    rw [List.cons_append, lookup_cons_eq, lookup_cons_eq]
    by_cases h : k' = a <;> simp [h, ih]

theorem lookup_map_upd_ne {α : Type} (es : List (String × α)) (k k' : String) (v : α)
    (h : k' ≠ k) :
    List.lookup k' (es.map (fun p => if p.1 == k then (p.1, v) else p)) =
      List.lookup k' es := by
  induction es with
  | nil => rfl
  | cons p t ih =>
    rcases p with ⟨a, b⟩
    by_cases ha : a = k
    · subst ha
      simp only [List.map_cons, beq_self_eq_true, if_true]
      rw [lookup_cons_eq, lookup_cons_eq, if_neg h, if_neg h, ih]
    · have hf : (a == k) = false := beq_eq_false_iff_ne.mpr ha
      simp only [List.map_cons, hf, Bool.false_eq_true, if_false]
      rw [lookup_cons_eq, lookup_cons_eq]
      by_cases hk : k' = a
      · rw [if_pos hk, if_pos hk]
      · rw [if_neg hk, if_neg hk, ih]

theorem lookup_map_upd_eq {α : Type} (es : List (String × α)) (k : String) (v : α)
    (h : (List.lookup k es).isSome) :
    List.lookup k (es.map (fun p => if p.1 == k then (p.1, v) else p)) = some v := by
  induction es with
  | nil => simp [List.lookup] at h
  | cons p t ih =>
    rcases p with ⟨a, b⟩
    by_cases ha : a = k
    · subst ha
      simp only [List.map_cons, beq_self_eq_true, if_true]
      rw [lookup_cons_eq, if_pos rfl]
    · have hf : (a == k) = false := beq_eq_false_iff_ne.mpr ha
      simp only [List.map_cons, hf, Bool.false_eq_true, if_false]
      rw [lookup_cons_eq, if_neg (Ne.symm ha)]
      rw [lookup_cons_eq, if_neg (Ne.symm ha)] at h
      exact ih h

theorem JsObj.lookup_set {α : Type} (m : JsObj α) (k k' : String) (v : α) :
    (m.set k v).lookup k' = if k' = k then some v else m.lookup k' := by
  unfold JsObj.set
  by_cases hs : (m.lookup k).isSome
  · rw [if_pos hs]
    by_cases h : k' = k
    · subst h
      rw [if_pos rfl]
      exact lookup_map_upd_eq m.entries k' v hs
    · rw [if_neg h]
      exact lookup_map_upd_ne m.entries k k' v h
  · rw [if_neg hs]
    show List.lookup k' (m.entries ++ [(k, v)]) = _
    rw [lookup_append_single]
    rcases hl : List.lookup k' m.entries with _ | w
    · by_cases h : k' = k <;> simp [h, JsObj.lookup, hl]
    · have h : k' ≠ k := by
        intro he
        subst he
        rw [JsObj.lookup] at hs
        simp [hl] at hs
      simp [h, JsObj.lookup, hl]

theorem JsObj.keysOf_set {α : Type} (m : JsObj α) (k : String) (v : α) :
    (m.set k v).keysOf =
      if (m.lookup k).isSome then m.keysOf else m.keysOf ++ [k] := by
  unfold JsObj.set JsObj.keysOf
  by_cases hs : (m.lookup k).isSome
  · rw [if_pos hs, if_pos hs]
    show (m.entries.map _).map Prod.fst = _
    rw [List.map_map]
    apply List.map_congr_left
    intro p _
    by_cases h : p.1 = k <;> simp [h]
  · rw [if_neg hs, if_neg hs]
    simp

theorem lookup_isSome_iff_mem {α : Type} (es : List (String × α)) (k : String) :
    (List.lookup k es).isSome ↔ k ∈ es.map Prod.fst := by
  induction es with
  | nil => simp [List.lookup]
  | cons p t ih =>
    rcases p with ⟨a, b⟩
    rw [lookup_cons_eq]
    by_cases h : k = a <;> simp [h, ih]

theorem JsObj.mem_keysOf_iff {α : Type} (m : JsObj α) (k : String) :
    k ∈ m.keysOf ↔ (m.lookup k).isSome :=
  (lookup_isSome_iff_mem m.entries k).symm

theorem JsObj.keysInOrder_perm {α : Type} (m : JsObj α) :
    List.Perm m.keysInOrder m.keysOf := by
  unfold JsObj.keysInOrder
  have h1 : List.Perm (List.insertionSort idxLe (m.keysOf.filter isArrayIndexKey))
      (m.keysOf.filter isArrayIndexKey) := List.perm_insertionSort idxLe _
  have h2 := List.filter_append_perm isArrayIndexKey m.keysOf
  exact List.Perm.trans (h1.append (List.Perm.refl _)) h2

theorem JsObj.set_entries_ne_nil {α : Type} (m : JsObj α) (k : String) (v : α) :
    (m.set k v).entries ≠ [] := by
  unfold JsObj.set
  by_cases hs : (m.lookup k).isSome
  · rw [if_pos hs]
    have hne : m.entries ≠ [] := by
      intro he
      rw [JsObj.lookup, he] at hs
      simp [List.lookup] at hs
    intro hmap
    exact hne (List.map_eq_nil_iff.mp hmap)
  · rw [if_neg hs]
    simp

/-! ## Emission lemmas for the news handler -/

theorem emitGroup_ok_some {fs : FileSystem} {b : String} {gt gi : Option String}
    {a : Article} (h : emitGroup fs b ⟨gt, gi⟩ = Except.ok (some a)) :
    a.type = "article" ∧ a.title = b ∧ (gt.isSome || gi.isSome) = true := by
  rcases gi with _ | imgF <;> rcases gt with _ | txtF <;>
    unfold emitGroup at h <;> dsimp only at h
  · exact absurd h (by simp)
  · rcases hr : fs.readText txtF with _ | c <;> rw [hr] at h
    · exact Except.noConfusion h
    · obtain rfl := Option.some.inj (Except.ok.inj h)
      simp
  · rcases hb : fs.readBytes imgF with _ | bs <;> rw [hb] at h
    · exact Except.noConfusion h
    · obtain rfl := Option.some.inj (Except.ok.inj h)
      simp
  · rcases hb : fs.readBytes imgF with _ | bs <;> rw [hb] at h
    · exact Except.noConfusion h
    · rcases hr : fs.readText txtF with _ | c <;> rw [hr] at h
      · exact Except.noConfusion h
      · obtain rfl := Option.some.inj (Except.ok.inj h)
        simp

theorem emitGroup_ok_none {fs : FileSystem} {b : String} {gt gi : Option String}
    (h : emitGroup fs b ⟨gt, gi⟩ = Except.ok none) :
    gt = none ∧ gi = none := by
  rcases gi with _ | imgF <;> rcases gt with _ | txtF <;>
    unfold emitGroup at h <;> dsimp only at h
  · exact ⟨rfl, rfl⟩
  · rcases hr : fs.readText txtF with _ | c <;> rw [hr] at h <;> simp at h
  · rcases hb : fs.readBytes imgF with _ | bs <;> rw [hb] at h <;> simp at h
  · rcases hb : fs.readBytes imgF with _ | bs <;> rw [hb] at h
    · simp at h
    · rcases hr : fs.readText txtF with _ | c <;> rw [hr] at h <;> simp at h

theorem emitGroup_not_fails {fs : FileSystem} (b : String) {g : FileGroup}
    (h : ¬ groupReadFails fs g) :
    ∃ r, emitGroup fs b g = Except.ok r := by
  unfold groupReadFails at h
  push_neg at h
  obtain ⟨himg, htxt⟩ := h
  rcases g with ⟨gt, gi⟩
  rcases gi with _ | imgF <;> rcases gt with _ | txtF <;>
    unfold emitGroup <;> dsimp only
  · exact ⟨none, rfl⟩
  · rcases hr : fs.readText txtF with _ | c
    · exact (htxt txtF rfl hr).elim
    · exact ⟨_, rfl⟩
  · rcases hb : fs.readBytes imgF with _ | bs
    · exact (himg imgF rfl hb).elim
    · exact ⟨_, rfl⟩
  · rcases hb : fs.readBytes imgF with _ | bs
    · exact (himg imgF rfl hb).elim
    · rcases hr : fs.readText txtF with _ | c
      · exact (htxt txtF rfl hr).elim
      · exact ⟨_, rfl⟩

theorem emitGroup_fails {fs : FileSystem} (b : String) {g : FileGroup}
    (h : groupReadFails fs g) :
    emitGroup fs b g = Except.error () := by
  rcases g with ⟨gt, gi⟩
  rcases gi with _ | imgF <;> rcases gt with _ | txtF <;>
    unfold emitGroup <;> dsimp only
  · rcases h with ⟨f, hf, _⟩ | ⟨f, hf, _⟩ <;> exact Option.noConfusion hf
  · rcases h with ⟨f, hf, _⟩ | ⟨f, hf, hr⟩
    · exact Option.noConfusion hf
    · obtain rfl := Option.some.inj hf
      rw [hr]
  · rcases h with ⟨f, hf, hb⟩ | ⟨f, hf, _⟩
    · obtain rfl := Option.some.inj hf
      rw [hb]
    · exact Option.noConfusion hf
  · rcases h with ⟨f, hf, hb⟩ | ⟨f, hf, hr⟩
    · obtain rfl := Option.some.inj hf
      rw [hb]
    · obtain rfl := Option.some.inj hf
      rcases hb : fs.readBytes imgF with _ | bs
      · rfl
      · rw [hr]

theorem emitArticles_ok_titles {fs : FileSystem} :
    ∀ (pairs : List (String × FileGroup)),
      (∀ p ∈ pairs, ¬ groupReadFails fs p.2) →
      ∃ l, emitArticles fs pairs = Except.ok l ∧
        l.map (fun a => a.title) =
          (pairs.filter (fun p => p.2.textFile.isSome || p.2.imageFile.isSome)).map
            Prod.fst ∧
        ∀ a ∈ l, a.type = "article"
  | [], _ => ⟨[], rfl, rfl, by simp⟩
  | (b, g) :: rest, hok => by
    rcases g with ⟨gt, gi⟩
    have hg : ¬ groupReadFails fs ⟨gt, gi⟩ := hok (b, ⟨gt, gi⟩) (List.mem_cons_self _ _)
    obtain ⟨r, hr⟩ := emitGroup_not_fails b hg
    obtain ⟨l, hl, hmap, hty⟩ :=
      emitArticles_ok_titles rest (fun p hp => hok p (List.mem_cons_of_mem _ hp))
    rcases r with _ | a
    · obtain ⟨rfl, rfl⟩ := emitGroup_ok_none hr
      refine ⟨l, ?_, ?_, hty⟩
      · unfold emitArticles
        rw [hr, hl]
      · rw [hmap]
        simp [List.filter_cons]
    · obtain ⟨hty1, htitle, hhas⟩ := emitGroup_ok_some hr
      refine ⟨a :: l, ?_, ?_, ?_⟩
      · unfold emitArticles
        rw [hr, hl]
      · have hpred : ((fun (p : String × FileGroup) =>
            p.2.textFile.isSome || p.2.imageFile.isSome) (b, ⟨gt, gi⟩)) = true := hhas
        simp only [List.filter_cons, hpred, if_pos, List.map_cons]
        rw [htitle, hmap]
      · intro x hx
        rcases List.mem_cons.mp hx with rfl | hx'
        · exact hty1
        · exact hty x hx'

theorem emitArticles_type {fs : FileSystem} :
    ∀ {pairs : List (String × FileGroup)} {l : List Article},
      emitArticles fs pairs = Except.ok l → ∀ a ∈ l, a.type = "article"
  | [], l, h => by
    unfold emitArticles at h
    obtain rfl := Except.ok.inj h
    simp
  | (b, g) :: rest, l, h => by
    unfold emitArticles at h
    rcases he : emitGroup fs b g with _ | r <;> rw [he] at h
    · exact Except.noConfusion h
    · rcases ht : emitArticles fs rest with _ | l' <;> rw [ht] at h
      · exact Except.noConfusion h
      · obtain rfl := Except.ok.inj h
        intro a ha
        rcases r with _ | a'
        · exact emitArticles_type ht a ha
        · rcases List.mem_cons.mp ha with rfl | ha'
          · rcases g with ⟨gt, gi⟩
            exact (emitGroup_ok_some he).1
          · exact emitArticles_type ht a ha'

theorem emitArticles_error_of_mem {fs : FileSystem} :
    ∀ {pairs : List (String × FileGroup)} {p : String × FileGroup},
      p ∈ pairs → groupReadFails fs p.2 →
      emitArticles fs pairs = Except.error ()
  | [], p, hp, _ => absurd hp (List.not_mem_nil p)
  | (b, g) :: rest, p, hp, hf => by
    rcases List.mem_cons.mp hp with rfl | hp'
    · unfold emitArticles
      rw [emitGroup_fails b hf]
    · unfold emitArticles
      rcases he : emitGroup fs b g with _ | r
      · rfl
      · rw [emitArticles_error_of_mem hp' hf]

/-! ## Grouping lemmas for the news handler -/

theorem keysOf_set_mem {α : Type} (m : JsObj α) (k : String) (v : α) :
    (m.set k v).keysOf = if k ∈ m.keysOf then m.keysOf else m.keysOf ++ [k] := by
  rw [JsObj.keysOf_set]
  by_cases hm : k ∈ m.keysOf
  · rw [if_pos hm, if_pos ((JsObj.mem_keysOf_iff m k).mp hm)]
  · rw [if_neg hm, if_neg (fun hs => hm ((JsObj.mem_keysOf_iff m k).mpr hs))]

theorem groupStepN_eq_set (m : JsObj FileGroup) (f : String) :
    groupStepN m f = m.set (stemOf f)
      (if toLowerStr (extnameStr f) == ".txt"
        then { (m.lookup (stemOf f)).getD {} with textFile := some f }
        else if imageExts.contains (toLowerStr (extnameStr f))
        then { (m.lookup (stemOf f)).getD {} with imageFile := some f }
        else (m.lookup (stemOf f)).getD {}) := by
  unfold groupStepN
  dsimp only
  split_ifs <;> rfl

theorem keysOf_groupStepN (m : JsObj FileGroup) (f : String) :
    (groupStepN m f).keysOf =
      if stemOf f ∈ m.keysOf then m.keysOf else m.keysOf ++ [stemOf f] := by
  rw [groupStepN_eq_set, keysOf_set_mem]

theorem foldl_groupStepN_keysOf (files : List String) :
    ∀ (m : JsObj FileGroup),
      (files.foldl groupStepN m).keysOf =
        files.foldl
          (fun acc f => if stemOf f ∈ acc then acc else acc ++ [stemOf f])
          m.keysOf := by
  induction files with
  | nil => intro m; rfl
  | cons f t ih =>
    intro m
    rw [List.foldl_cons, List.foldl_cons, ih, keysOf_groupStepN]

theorem newsGroups_keysOf (files : List String) :
    (newsGroups files).keysOf = dedupKeepFirst (files.map stemOf) := by
  unfold newsGroups dedupKeepFirst
  rw [List.foldl_map, foldl_groupStepN_keysOf]
  rfl

theorem groupStepN_has_iff (m : JsObj FileGroup) (f : String) (b : String) :
    ((((groupStepN m f).lookup b).getD {}).textFile.isSome
        || (((groupStepN m f).lookup b).getD {}).imageFile.isSome) = true
      ↔ ((((m.lookup b).getD {}).textFile.isSome
            || ((m.lookup b).getD {}).imageFile.isSome) = true
          ∨ (stemOf f = b ∧ isRecognizedFile f = true)) := by
  rw [groupStepN_eq_set, JsObj.lookup_set]
  by_cases hb : b = stemOf f
  · rw [if_pos hb]
    subst hb
    by_cases h1 : (toLowerStr (extnameStr f) == ".txt") = true
    · rw [if_pos h1]
      refine iff_of_true (by simp) (Or.inr ⟨rfl, ?_⟩)
      unfold isRecognizedFile
      rw [h1]
      rfl
    · by_cases h2 : imageExts.contains (toLowerStr (extnameStr f)) = true
      · rw [if_neg h1, if_pos h2]
        refine iff_of_true (by simp) (Or.inr ⟨rfl, ?_⟩)
        unfold isRecognizedFile
        rw [h2, Bool.not_eq_true] at *
        rw [h1]
        rfl
      · rw [if_neg h1, if_neg h2]
        rw [Bool.not_eq_true] at h1 h2
        have hrec : isRecognizedFile f = false := by
          unfold isRecognizedFile
          rw [h1, h2]
          rfl
        simp [hrec]
  · rw [if_neg hb]
    have hns : ¬ (stemOf f = b ∧ isRecognizedFile f = true) := fun h => hb h.1.symm
    simp [hns]

theorem foldl_groupStepN_has (files : List String) :
    ∀ (m : JsObj FileGroup) (b : String),
      ((((files.foldl groupStepN m).lookup b).getD {}).textFile.isSome
          || (((files.foldl groupStepN m).lookup b).getD {}).imageFile.isSome) = true
        ↔ ((((m.lookup b).getD {}).textFile.isSome
              || ((m.lookup b).getD {}).imageFile.isSome) = true
            ∨ ∃ f ∈ files, stemOf f = b ∧ isRecognizedFile f = true) := by
  induction files with
  | nil => intro m b; simp
  | cons f t ih =>
    intro m b
    rw [List.foldl_cons, ih, groupStepN_has_iff]
    constructor
    · rintro ((h | h) | ⟨f', hf', hs, hr⟩)
      · exact Or.inl h
      · exact Or.inr ⟨f, List.mem_cons_self _ _, h⟩
      · exact Or.inr ⟨f', List.mem_cons_of_mem _ hf', hs, hr⟩
    · rintro (h | ⟨f', hf', hs, hr⟩)
      · exact Or.inl (Or.inl h)
      · rcases List.mem_cons.mp hf' with rfl | hm
        · exact Or.inl (Or.inr ⟨hs, hr⟩)
        · exact Or.inr ⟨f', hm, hs, hr⟩

theorem newsGroups_has_iff (files : List String) (b : String) :
    ((((newsGroups files).lookup b).getD {}).textFile.isSome
        || (((newsGroups files).lookup b).getD {}).imageFile.isSome) = true
      ↔ ∃ f ∈ files, stemOf f = b ∧ isRecognizedFile f = true := by
  unfold newsGroups
  rw [foldl_groupStepN_has]
  have he : (JsObj.empty.lookup b : Option FileGroup) = none := rfl
  rw [he]
  simp

/-! ## Pipeline lemmas for the two directory handlers -/

theorem newsGroups_keysInOrder (files : List String) :
    (newsGroups files).keysInOrder = orderedStems files := by
  unfold JsObj.keysInOrder orderedStems
  rw [newsGroups_keysOf]

theorem getNewsArticles_titles (fs : FileSystem) (files : List String)
    (hl : fs.listing = some files)
    (hok : ∀ p ∈ groupList (newsGroups files), ¬ groupReadFails fs p.2) :
    (getNewsArticles fs).map (fun a => a.title) =
      ((newsGroups files).keysInOrder).filter
        (fun b => (((newsGroups files).lookup b).getD {}).textFile.isSome
          || (((newsGroups files).lookup b).getD {}).imageFile.isSome) := by
  obtain ⟨l, hel, hmap, _⟩ := @emitArticles_ok_titles fs
    (groupList (newsGroups files)) hok
  unfold getNewsArticles getNewsArticlesE
  rw [hl]
  dsimp only
  rw [hel]
  dsimp only
  rw [hmap]
  unfold groupList
  rw [List.filter_map, List.map_map]
  simp [Function.comp_def]

theorem not_fails_of_readsOk {fs : FileSystem} {g : FileGroup}
    (h : groupReadsOk fs g = true) : ¬ groupReadFails fs g := by
  unfold groupReadsOk at h
  rw [Bool.and_eq_true] at h
  obtain ⟨ht, hi⟩ := h
  rintro (⟨f, hf, hr⟩ | ⟨f, hf, hr⟩)
  · rw [hf] at hi
    have hi' : (fs.readBytes f).isSome = true := hi
    rw [hr] at hi'
    simp at hi'
  · rw [hf] at ht
    have ht' : (fs.readText f).isSome = true := ht
    rw [hr] at ht'
    simp at ht'

theorem dedupKeepFirst_foldl_nodup (l : List String) :
    ∀ acc : List String, acc.Nodup →
      (l.foldl (fun acc d => if d ∈ acc then acc else acc ++ [d]) acc).Nodup := by
  induction l with
  | nil => intro acc h; exact h
  | cons d t ih =>
    intro acc h
    rw [List.foldl_cons]
    by_cases hd : d ∈ acc
    · rw [if_pos hd]
      exact ih acc h
    · rw [if_neg hd]
      refine ih _ (h.append (List.nodup_singleton d) ?_)
      intro x hx hxd
      exact hd ((List.mem_singleton.mp hxd) ▸ hx)

theorem dedupKeepFirst_nodup (l : List String) : (dedupKeepFirst l).Nodup :=
  dedupKeepFirst_foldl_nodup l [] List.nodup_nil

theorem groupList_map_fst (m : JsObj FileGroup) :
    (groupList m).map Prod.fst = m.keysInOrder := by
  unfold groupList
  rw [List.map_map]
  simp [Function.comp_def]

theorem emitArticles_titles_mem {fs : FileSystem} :
    ∀ {pairs : List (String × FileGroup)} {l : List Article},
      emitArticles fs pairs = Except.ok l → ∀ a ∈ l, a.title ∈ pairs.map Prod.fst
  | [], l, h => by
    unfold emitArticles at h
    obtain rfl := Except.ok.inj h
    simp
  | (b, g) :: rest, l, h => by
    unfold emitArticles at h
    rcases he : emitGroup fs b g with _ | r <;> rw [he] at h
    · exact Except.noConfusion h
    · rcases ht : emitArticles fs rest with _ | l' <;> rw [ht] at h
      · exact Except.noConfusion h
      · obtain rfl := Except.ok.inj h
        intro a ha
        rcases r with _ | a'
        · exact List.mem_cons_of_mem _ (emitArticles_titles_mem ht a ha)
        · rcases List.mem_cons.mp ha with rfl | ha'
          · rcases g with ⟨gt, gi⟩
            rw [List.map_cons]
            rw [(emitGroup_ok_some he).2.1]
            exact List.mem_cons_self _ _
          · exact List.mem_cons_of_mem _ (emitArticles_titles_mem ht a ha')

theorem emitArticles_filter_singleton {fs : FileSystem} :
    ∀ (pairs : List (String × FileGroup)) (l : List Article) (b : String)
      (g : FileGroup) (a : Article),
      emitArticles fs pairs = Except.ok l →
      (pairs.map Prod.fst).Nodup →
      (b, g) ∈ pairs →
      emitGroup fs b g = Except.ok (some a) →
      l.filter (fun x => x.title == b) = [a]
  | [], _, _, _, _, _, _, hmem, _ => absurd hmem (List.not_mem_nil _)
  | (b', g') :: rest, l, b, g, a, hE, hnd, hmem, he => by
    unfold emitArticles at hE
    rcases he' : emitGroup fs b' g' with _ | r <;> rw [he'] at hE
    · exact Except.noConfusion hE
    rcases hr' : emitArticles fs rest with _ | l' <;> rw [hr'] at hE
    · exact Except.noConfusion hE
    obtain rfl := Except.ok.inj hE
    simp only [List.map_cons] at hnd
    obtain ⟨hb', hndr⟩ := List.nodup_cons.mp hnd
    rcases List.mem_cons.mp hmem with heq | hmem'
    · have hb1 : b' = b := ((Prod.mk.inj heq).1).symm
      have hg1 : g' = g := ((Prod.mk.inj heq).2).symm
      rw [hb1, hg1, he] at he'
      obtain rfl := Except.ok.inj he'
      show List.filter (fun x => x.title == b) (a :: l') = [a]
      rw [hb1] at hb'
      rcases g with ⟨gt, gi⟩
      have hta : a.title = b := (emitGroup_ok_some he).2.1
      have hbeq : (a.title == b) = true := beq_iff_eq.mpr hta
      have hnil : List.filter (fun x => x.title == b) l' = [] := by
        rw [List.filter_eq_nil_iff]
        intro x hx hxb
        exact hb' ((beq_iff_eq.mp hxb) ▸ emitArticles_titles_mem hr' x hx)
      simp [List.filter_cons, hbeq, hnil]
    · have hbn : b ≠ b' := by
        intro h0
        exact hb' (h0 ▸ List.mem_map.mpr ⟨(b, g), hmem', rfl⟩)
      have hrec := emitArticles_filter_singleton rest l' b g a hr' hndr hmem' he
      rcases r with _ | a'
      · exact hrec
      · show List.filter (fun x => x.title == b) (a' :: l') = [a]
        rcases g' with ⟨gt', gi'⟩
        have hta' : a'.title = b' := (emitGroup_ok_some he').2.1
        have hbeq : (a'.title == b) = false := by
          rw [hta']
          exact beq_eq_false_iff_ne.mpr (fun hh => hbn hh.symm)
        simp only [List.filter_cons, hbeq, Bool.false_eq_true, if_false]
        exact hrec

theorem emitGroup_both (fs : FileSystem) (b tf imf txt : String)
    (bytes : List Nat) (ht : fs.readText tf = some txt)
    (hi : fs.readBytes imf = some bytes) :
    emitGroup fs b ⟨some tf, some imf⟩ =
      Except.ok (some
        { type := "article", title := b, description := jsTrim txt,
          imagePath := some (newsImageData imf bytes) }) := by
  unfold emitGroup
  dsimp only
  rw [hi, ht]

theorem emitGroup_image_only (fs : FileSystem) (b imf : String)
    (bytes : List Nat) (hi : fs.readBytes imf = some bytes) :
    emitGroup fs b ⟨none, some imf⟩ =
      Except.ok (some
        { type := "article", title := b, description := "",
          imagePath := some (newsImageData imf bytes) }) := by
  unfold emitGroup
  dsimp only
  rw [hi]

theorem emitGroup_text_only (fs : FileSystem) (b tf txt : String)
    (ht : fs.readText tf = some txt) :
    emitGroup fs b ⟨some tf, none⟩ =
      Except.ok (some
        { type := "article", title := b, description := jsTrim txt,
          imagePath := none }) := by
  unfold emitGroup
  dsimp only
  rw [ht]

theorem getNewsArticles_filter_stem (fs : FileSystem) (files : List String)
    (b : String) (g : FileGroup) (a : Article)
    (hl : fs.listing = some files)
    (hok : ∀ p ∈ groupList (newsGroups files), ¬ groupReadFails fs p.2)
    (hg : (newsGroups files).lookup b = some g)
    (he : emitGroup fs b g = Except.ok (some a)) :
    (getNewsArticles fs).filter (fun x => x.title == b) = [a] := by
  obtain ⟨l, hel, _, _⟩ := @emitArticles_ok_titles fs
    (groupList (newsGroups files)) hok
  have hout : getNewsArticles fs = l := by
    unfold getNewsArticles getNewsArticlesE
    rw [hl]
    dsimp only
    rw [hel]
  rw [hout]
  have hmem : (b, g) ∈ groupList (newsGroups files) := by
    unfold groupList
    have hkey : b ∈ (newsGroups files).keysOf :=
      (JsObj.mem_keysOf_iff _ b).mpr (by rw [hg]; rfl)
    refine List.mem_map.mpr
      ⟨b, ((JsObj.keysInOrder_perm _).mem_iff).mpr hkey, ?_⟩
    rw [hg, Option.getD_some]
  have hnd : ((groupList (newsGroups files)).map Prod.fst).Nodup := by
    rw [groupList_map_fst]
    have h1 : ((newsGroups files).keysOf).Nodup := by
      rw [newsGroups_keysOf]
      exact dedupKeepFirst_nodup _
    exact ((JsObj.keysInOrder_perm _).nodup_iff).mpr h1
  exact emitArticles_filter_singleton _ _ _ _ _ hel hnd hmem he

theorem anyStem_readsOk (fs : FileSystem) (files : List String)
    (hall : (groupList (newsGroups files)).all
      (fun p => groupReadsOk fs p.2) = true) :
    ∀ p ∈ groupList (newsGroups files), ¬ groupReadFails fs p.2 :=
  fun p hp => not_fails_of_readsOk (List.all_eq_true.mp hall p hp)

theorem annLoop_ok (fs : FileSystem) :
    ∀ (files : List String),
      (∀ f ∈ files, (toLowerStr (extnameStr f) == ".txt") = true →
        (fs.readText f).isSome) →
      annLoop fs files = Except.ok (announcementsSpec fs files)
  | [], _ => rfl
  | f :: t, h => by
    have ht := annLoop_ok fs t (fun f' hf' => h f' (List.mem_cons_of_mem _ hf'))
    by_cases hx : (toLowerStr (extnameStr f) == ".txt") = true
    · rcases hr : fs.readText f with _ | content
      · have hs := h f (List.mem_cons_self _ _) hx
        rw [hr] at hs
        exact absurd hs (by simp)
      · unfold annLoop
        rw [if_pos hx, hr, ht]
        show Except.ok
          (if 0 < utf16Len (jsTrim content) ∧ utf16Len (jsTrim content) ≤ 100
            then (⟨jsTrim content⟩ : Ann) :: announcementsSpec fs t
            else announcementsSpec fs t) = Except.ok (announcementsSpec fs (f :: t))
        unfold announcementsSpec
        simp only [List.filterMap_cons, if_pos hx, hr]
        by_cases hc : 0 < utf16Len (jsTrim content) ∧ utf16Len (jsTrim content) ≤ 100
        · simp only [if_pos hc]
        · simp only [if_neg hc]
    · unfold annLoop
      rw [if_neg hx, ht]
      show Except.ok (announcementsSpec fs t) = Except.ok (announcementsSpec fs (f :: t))
      unfold announcementsSpec
      simp only [List.filterMap_cons, if_neg hx]

theorem annLoop_error (fs : FileSystem) :
    ∀ (files : List String) (f : String), f ∈ files →
      (toLowerStr (extnameStr f) == ".txt") = true → fs.readText f = none →
      annLoop fs files = Except.error ()
  | [], f, hf, _, _ => absurd hf (List.not_mem_nil f)
  | f' :: t, f, hf, hx, hr => by
    unfold annLoop
    rcases List.mem_cons.mp hf with rfl | hm
    · rw [if_pos hx, hr]
    · by_cases hx' : (toLowerStr (extnameStr f') == ".txt") = true
      · rw [if_pos hx']
        rcases hr' : fs.readText f' with _ | content
        · rfl
        · rw [annLoop_error fs t f hm hx hr]
      · rw [if_neg hx']
        exact annLoop_error fs t f hm hx hr

/-! ## JsNum order lemmas and the per-bucket scan -/

theorem jsLt_irrefl (x : JsNum) : jsLt x x = false := by
  cases x <;> simp [jsLt]

theorem jsLt_asymm : ∀ {x y : JsNum}, jsLt x y = true → jsLt y x = false := by
  intro x y h
  cases x <;> cases y <;> simp_all [jsLt]
  exact h.le

theorem jsLe_trans : ∀ {x y z : JsNum}, jsLt y x = false → jsLt z y = false →
    jsLt z x = false := by
  intro x y z h1 h2
  cases x <;> cases y <;> cases z <;> simp_all [jsLt]
  exact le_trans h1 h2

theorem dayStep_minT (acc : DayAcc) (it : ForecastItem) :
    (dayStep acc it).minT = minStep acc.minT it := rfl

theorem foldl_dayStep_minT (l : List ForecastItem) :
    ∀ (acc : DayAcc), (l.foldl dayStep acc).minT = l.foldl minStep acc.minT := by
  induction l with
  | nil => intro acc; rfl
  | cons it t ih => intro acc; rw [List.foldl_cons, List.foldl_cons, ih, dayStep_minT]

theorem dayStep_maxT (acc : DayAcc) (it : ForecastItem) :
    (dayStep acc it).maxT = maxStep acc.maxT it := rfl

theorem foldl_dayStep_maxT (l : List ForecastItem) :
    ∀ (acc : DayAcc), (l.foldl dayStep acc).maxT = l.foldl maxStep acc.maxT := by
  induction l with
  | nil => intro acc; rfl
  | cons it t ih => intro acc; rw [List.foldl_cons, List.foldl_cons, ih, dayStep_maxT]

theorem dayStep_counts (acc : DayAcc) (it : ForecastItem) :
    (dayStep acc it).counts = countStep acc.counts it := rfl

theorem foldl_dayStep_counts (l : List ForecastItem) :
    ∀ (acc : DayAcc), (l.foldl dayStep acc).counts = l.foldl countStep acc.counts := by
  induction l with
  | nil => intro acc; rfl
  | cons it t ih => intro acc; rw [List.foldl_cons, List.foldl_cons, ih, dayStep_counts]

theorem minFold_le (l : List ForecastItem) :
    ∀ (acc : JsNum),
      (∀ it ∈ l, jsLt (JsNum.num it.temp) (l.foldl minStep acc) = false) ∧
        jsLt acc (l.foldl minStep acc) = false := by
  induction l with
  | nil => intro acc; exact ⟨by simp, jsLt_irrefl acc⟩
  | cons it t ih =>
    intro acc
    rw [List.foldl_cons]
    obtain ⟨hlb, hacc⟩ := ih (minStep acc it)
    have hstep_self : jsLt (JsNum.num it.temp) (minStep acc it) = false := by
      unfold minStep
      by_cases h : jsLt (JsNum.num it.temp) acc = true
      · rw [if_pos h]; exact jsLt_irrefl _
      · rw [if_neg h]
        exact Bool.not_eq_true _ ▸ h
    have hstep_acc : jsLt acc (minStep acc it) = false := by
      unfold minStep
      by_cases h : jsLt (JsNum.num it.temp) acc = true
      · rw [if_pos h]; exact jsLt_asymm h
      · rw [if_neg h]; exact jsLt_irrefl acc
    refine ⟨?_, jsLe_trans hacc hstep_acc⟩
    intro x hx
    rcases List.mem_cons.mp hx with rfl | hm
    · exact jsLe_trans hacc hstep_self
    · exact hlb x hm

theorem minFold_mem (l : List ForecastItem) :
    ∀ (acc : JsNum),
      l.foldl minStep acc = acc ∨ ∃ it ∈ l, l.foldl minStep acc = JsNum.num it.temp := by
  induction l with
  | nil => intro acc; exact Or.inl rfl
  | cons it t ih =>
    intro acc
    rw [List.foldl_cons]
    rcases ih (minStep acc it) with h | ⟨x, hx, hfx⟩
    · have hs : minStep acc it =
          if jsLt (JsNum.num it.temp) acc then JsNum.num it.temp else acc := rfl
      rw [hs] at h
      by_cases hc : jsLt (JsNum.num it.temp) acc = true
      · rw [if_pos hc] at h
        rw [hs, if_pos hc]
        exact Or.inr ⟨it, List.mem_cons_self _ _, h⟩
      · rw [if_neg hc] at h
        rw [hs, if_neg hc]
        exact Or.inl h
    · exact Or.inr ⟨x, List.mem_cons_of_mem _ hx, hfx⟩

theorem maxFold_le (l : List ForecastItem) :
    ∀ (acc : JsNum),
      (∀ it ∈ l, jsLt (l.foldl maxStep acc) (JsNum.num it.temp) = false) ∧
        jsLt (l.foldl maxStep acc) acc = false := by
  induction l with
  | nil => intro acc; exact ⟨by simp, jsLt_irrefl acc⟩
  | cons it t ih =>
    intro acc
    rw [List.foldl_cons]
    obtain ⟨hub, hacc⟩ := ih (maxStep acc it)
    have hstep_self : jsLt (maxStep acc it) (JsNum.num it.temp) = false := by
      unfold maxStep
      by_cases h : jsLt acc (JsNum.num it.temp) = true
      · rw [if_pos h]; exact jsLt_irrefl _
      · rw [if_neg h]
        exact Bool.not_eq_true _ ▸ h
    have hstep_acc : jsLt (maxStep acc it) acc = false := by
      unfold maxStep
      by_cases h : jsLt acc (JsNum.num it.temp) = true
      · rw [if_pos h]; exact jsLt_asymm h
      · rw [if_neg h]; exact jsLt_irrefl acc
    refine ⟨?_, jsLe_trans hstep_acc hacc⟩
    intro x hx
    rcases List.mem_cons.mp hx with rfl | hm
    · exact jsLe_trans hstep_self hacc
    · exact hub x hm

theorem maxFold_mem (l : List ForecastItem) :
    ∀ (acc : JsNum),
      l.foldl maxStep acc = acc ∨ ∃ it ∈ l, l.foldl maxStep acc = JsNum.num it.temp := by
  induction l with
  | nil => intro acc; exact Or.inl rfl
  | cons it t ih =>
    intro acc
    rw [List.foldl_cons]
    rcases ih (maxStep acc it) with h | ⟨x, hx, hfx⟩
    · have hs : maxStep acc it =
          if jsLt acc (JsNum.num it.temp) then JsNum.num it.temp else acc := rfl
      rw [hs] at h
      by_cases hc : jsLt acc (JsNum.num it.temp) = true
      · rw [if_pos hc] at h
        rw [hs, if_pos hc]
        exact Or.inr ⟨it, List.mem_cons_self _ _, h⟩
      · rw [if_neg hc] at h
        rw [hs, if_neg hc]
        exact Or.inl h
    · exact Or.inr ⟨x, List.mem_cons_of_mem _ hx, hfx⟩

theorem dayStats_min (items : List ForecastItem) (hne : items ≠ []) :
    ∃ q : Rat, (dayStats items).minT = JsNum.num q ∧
      (∃ it ∈ items, it.temp = q) ∧ ∀ it ∈ items, q ≤ it.temp := by
  unfold dayStats
  rw [foldl_dayStep_minT]
  obtain ⟨hlb, _⟩ := minFold_le items JsNum.posInf
  rcases minFold_mem items JsNum.posInf with h | ⟨x, hx, hfx⟩
  · obtain ⟨it, hit⟩ := List.exists_mem_of_ne_nil items hne
    have := hlb it hit
    rw [h] at this
    simp [jsLt] at this
  · refine ⟨x.temp, hfx, ⟨x, hx, rfl⟩, ?_⟩
    intro it hit
    have := hlb it hit
    rw [hfx] at this
    simpa [jsLt, not_lt] using this

theorem dayStats_max (items : List ForecastItem) (hne : items ≠ []) :
    ∃ q : Rat, (dayStats items).maxT = JsNum.num q ∧
      (∃ it ∈ items, it.temp = q) ∧ ∀ it ∈ items, it.temp ≤ q := by
  unfold dayStats
  rw [foldl_dayStep_maxT]
  obtain ⟨hub, _⟩ := maxFold_le items JsNum.negInf
  rcases maxFold_mem items JsNum.negInf with h | ⟨x, hx, hfx⟩
  · obtain ⟨it, hit⟩ := List.exists_mem_of_ne_nil items hne
    have := hub it hit
    rw [h] at this
    simp [jsLt] at this
  · refine ⟨x.temp, hfx, ⟨x, hx, rfl⟩, ?_⟩
    intro it hit
    have := hub it hit
    rw [hfx] at this
    simpa [jsLt, not_lt] using this

/-! ## Condition count lemmas -/

theorem countStep_eq_set (c : JsObj Nat) (it : ForecastItem) :
    countStep c it = c.set it.cond ((c.lookup it.cond).getD 0 + 1) := by
  unfold countStep
  rcases h : c.lookup it.cond with _ | n <;> simp [h]

theorem mem_entries_set {α : Type} {m : JsObj α} {k : String} {v : α} {p : String × α}
    (hp : p ∈ (m.set k v).entries) : p.2 = v ∨ p ∈ m.entries := by
  unfold JsObj.set at hp
  by_cases hs : (m.lookup k).isSome
  · rw [if_pos hs] at hp
    obtain ⟨q, hq, hqe⟩ := List.mem_map.mp hp
    by_cases h : (q.1 == k) = true
    · rw [if_pos h] at hqe
      left
      rw [← hqe]
    · rw [if_neg h] at hqe
      right
      rw [← hqe]
      exact hq
  · rw [if_neg hs] at hp
    rcases List.mem_append.mp hp with h | h
    · exact Or.inr h
    · left
      obtain rfl := List.mem_singleton.mp h
      rfl

theorem foldl_countStep_pos (l : List ForecastItem) :
    ∀ (c : JsObj Nat), (∀ p ∈ c.entries, 1 ≤ p.2) →
      ∀ p ∈ (l.foldl countStep c).entries, 1 ≤ p.2 := by
  induction l with
  | nil => intro c hc; exact hc
  | cons it t ih =>
    intro c hc
    rw [List.foldl_cons]
    apply ih
    intro p hp
    rw [countStep_eq_set] at hp
    rcases mem_entries_set hp with h | h
    · rw [h]; exact Nat.le_add_left 1 _
    · exact hc p h

theorem foldl_countStep_ne_nil (l : List ForecastItem) :
    ∀ (c : JsObj Nat), c.entries ≠ [] → (l.foldl countStep c).entries ≠ [] := by
  induction l with
  | nil => intro c hc; exact hc
  | cons it t ih =>
    intro c _
    rw [List.foldl_cons]
    apply ih
    rw [countStep_eq_set]
    exact JsObj.set_entries_ne_nil c _ _

theorem dayStats_counts_pos (items : List ForecastItem) :
    ∀ p ∈ (dayStats items).counts.entries, 1 ≤ p.2 := by
  unfold dayStats
  rw [foldl_dayStep_counts]
  exact foldl_countStep_pos items JsObj.empty (by intro p hp; exact absurd hp (by simp [JsObj.empty]))

theorem dayStats_counts_ne_nil (items : List ForecastItem) (hne : items ≠ []) :
    (dayStats items).counts.entries ≠ [] := by
  unfold dayStats
  rw [foldl_dayStep_counts]
  rcases items with _ | ⟨it, t⟩
  · exact absurd rfl hne
  · rw [List.foldl_cons]
    apply foldl_countStep_ne_nil
    rw [countStep_eq_set]
    exact JsObj.set_entries_ne_nil _ _ _

theorem lookup_mem {α : Type} :
    ∀ (es : List (String × α)) (k : String) (v : α),
      List.lookup k es = some v → (k, v) ∈ es
  | [], k, v, h => by simp [List.lookup] at h
  | (a, b) :: t, k, v, h => by
    rw [lookup_cons_eq] at h
    by_cases hk : k = a
    · rw [if_pos hk] at h
      obtain rfl := Option.some.inj h
      rw [hk]
      exact List.mem_cons_self _ _
    · rw [if_neg hk] at h
      exact List.mem_cons_of_mem _ (lookup_mem t k v h)

theorem pairsOf_pos (m : JsObj Nat) (hpos : ∀ p ∈ m.entries, 1 ≤ p.2) :
    ∀ p ∈ pairsOf m, 1 ≤ p.2 := by
  intro p hp
  unfold pairsOf at hp
  obtain ⟨k, hk, rfl⟩ := List.mem_map.mp hp
  have hk' : k ∈ m.keysOf := (m.keysInOrder_perm.mem_iff).mp hk
  have hs := (m.mem_keysOf_iff k).mp hk'
  rcases hl : m.lookup k with _ | v
  · rw [hl] at hs
    simp at hs
  · simpa using hpos (k, v) (lookup_mem m.entries k v hl)

theorem pairsOf_ne_nil (m : JsObj Nat) (hne : m.entries ≠ []) : pairsOf m ≠ [] := by
  unfold pairsOf
  intro h
  have h1 : m.keysInOrder = [] := List.map_eq_nil_iff.mp h
  have h2 : m.keysOf.length = 0 := by
    rw [← m.keysInOrder_perm.length_eq, h1]
    rfl
  have : m.entries.length = 0 := by
    unfold JsObj.keysOf at h2
    rw [List.length_map] at h2
    exact h2
  exact hne (List.length_eq_zero.mp this)

/-! ## The most-common-condition loop -/

theorem find?_cons_eq {α : Type} (p : α → Bool) (a : α) (l : List α) :
    List.find? p (a :: l) = if p a then some a else List.find? p l := by
  rcases h : p a
  · rw [List.find?_cons_of_neg _ (by simp [h])]
    simp [h]
  · rw [List.find?_cons_of_pos _ h]
    simp [h]

theorem find?_congr_local {α : Type} :
    ∀ (l : List α) (p q : α → Bool), (∀ x ∈ l, p x = q x) →
      l.find? p = l.find? q
  | [], _, _, _ => rfl
  | a :: t, p, q, h => by
    rw [find?_cons_eq, find?_cons_eq, h a (List.mem_cons_self _ _),
      find?_congr_local t p q (fun x hx => h x (List.mem_cons_of_mem _ hx))]

theorem exists_argmax :
    ∀ (l : List (String × Nat)), l ≠ [] → ∃ p ∈ l, ∀ q ∈ l, q.2 ≤ p.2
  | [], h => absurd rfl h
  | p :: t, _ => by
    rcases ht : t with _ | ⟨x, t'⟩
    · exact ⟨p, List.mem_cons_self _ _, by simp⟩
    · rw [← ht]
      obtain ⟨w, hw, hwmax⟩ := exists_argmax t (by rw [ht]; simp)
      by_cases h : p.2 ≤ w.2
      · refine ⟨w, List.mem_cons_of_mem _ hw, ?_⟩
        intro q hq
        rcases List.mem_cons.mp hq with rfl | hq'
        · exact h
        · exact hwmax q hq'
      · refine ⟨p, List.mem_cons_self _ _, ?_⟩
        intro q hq
        rcases List.mem_cons.mp hq with rfl | hq'
        · exact le_refl _
        · exact le_trans (hwmax q hq') (le_of_lt (not_le.mp h))

theorem bestLoop_spec :
    ∀ (l : List (String × Nat)) (m : Nat) (b : Option String),
      bestLoop l m b =
        match l.find? (fun p => decide (m < p.2) && l.all (fun q => decide (q.2 ≤ p.2))) with
        | some p => some p.1
        | none => b
  | [], _, _ => rfl
  | (k, c) :: t, m, b => by
    unfold bestLoop
    rw [find?_cons_eq]
    by_cases hm : m < c
    · rw [if_pos hm, bestLoop_spec t c (some k)]
      by_cases hall : ∀ q ∈ t, q.2 ≤ c
      · have hp : (decide (m < c)
            && ((k, c) :: t).all (fun q => decide (q.2 ≤ c))) = true := by
          simp only [Bool.and_eq_true, decide_eq_true_eq, List.all_eq_true]
          refine ⟨hm, fun q hq => ?_⟩
          rcases List.mem_cons.mp hq with rfl | hq'
          · simp
          · simp [hall q hq']
        rw [if_pos hp]
        have hnone : t.find? (fun p => decide (c < p.2)
            && t.all (fun q => decide (q.2 ≤ p.2))) = none := by
          rw [List.find?_eq_none]
          intro x hx
          simp only [Bool.and_eq_true, decide_eq_true_eq, not_and]
          intro hcx _
          exact absurd (hall x hx) (not_le.mpr hcx)
        rw [hnone]
      · push_neg at hall
        obtain ⟨w, hw, hcw⟩ := hall
        have hp : (decide (m < c)
            && ((k, c) :: t).all (fun q => decide (q.2 ≤ c))) = false := by
          have hf : ((k, c) :: t).all (fun q => decide (q.2 ≤ c)) = false := by
            rw [List.all_eq_false]
            exact ⟨w, List.mem_cons_of_mem _ hw, by simp [not_le.mpr hcw]⟩
          rw [hf, Bool.and_false]
        rw [if_neg (by rw [hp]; exact Bool.false_ne_true)]
        have heq : t.find? (fun p => decide (c < p.2) && t.all (fun q => decide (q.2 ≤ p.2)))
            = t.find? (fun p => decide (m < p.2)
                && ((k, c) :: t).all (fun q => decide (q.2 ≤ p.2))) := by
          apply find?_congr_local
          intro x hx
          by_cases hta : t.all (fun q => decide (q.2 ≤ x.2)) = true
          · have hta' : ∀ q ∈ t, q.2 ≤ x.2 := by
              intro q hq
              have := List.all_eq_true.mp hta q hq
              simpa using this
            have hcx : c < x.2 := lt_of_lt_of_le hcw (hta' w hw)
            have hmx : m < x.2 := lt_trans hm hcx
            simp [List.all_cons, hcx, hmx, hta, le_of_lt hcx]
          · have hta' : t.all (fun q => decide (q.2 ≤ x.2)) = false :=
              Bool.not_eq_true _ ▸ hta
            simp [List.all_cons, hta']
        rw [heq]
        have hsome : (t.find? (fun p => decide (m < p.2)
            && ((k, c) :: t).all (fun q => decide (q.2 ≤ p.2)))).isSome := by
          rw [List.find?_isSome]
          obtain ⟨x, hx, hxmax⟩ := exists_argmax t (List.ne_nil_of_mem hw)
          refine ⟨x, hx, ?_⟩
          have hcx : c < x.2 := lt_of_lt_of_le hcw (hxmax w hw)
          simp only [Bool.and_eq_true, decide_eq_true_eq, List.all_eq_true]
          refine ⟨lt_trans hm hcx, fun q hq => ?_⟩
          rcases List.mem_cons.mp hq with rfl | hq'
          · simp [le_of_lt hcx]
          · simp [hxmax q hq']
        rcases hft : t.find? (fun p => decide (m < p.2)
            && ((k, c) :: t).all (fun q => decide (q.2 ≤ p.2))) with _ | p
        · rw [hft] at hsome
          simp at hsome
        · rw [hft]
    · rw [if_neg hm, bestLoop_spec t m b]
      have hp : (decide (m < c)
          && ((k, c) :: t).all (fun q => decide (q.2 ≤ c))) = false := by
        have : (decide (m < c)) = false := by simp [hm]
        rw [this, Bool.false_and]
      rw [if_neg (by rw [hp]; exact Bool.false_ne_true)]
      have heq : t.find? (fun p => decide (m < p.2) && t.all (fun q => decide (q.2 ≤ p.2)))
          = t.find? (fun p => decide (m < p.2)
              && ((k, c) :: t).all (fun q => decide (q.2 ≤ p.2))) := by
        apply find?_congr_local
        intro x hx
        by_cases hmx : m < x.2
        · have hcx : c ≤ x.2 := le_trans (not_lt.mp hm) (le_of_lt hmx)
          simp [List.all_cons, hmx, hcx]
        · simp [hmx]
      rw [heq]

theorem bestLoop_argmax (l : List (String × Nat)) (hne : l ≠ [])
    (hpos : ∀ p ∈ l, 1 ≤ p.2) :
    ∃ p ∈ l, bestLoop l 0 none = some p.1 ∧ (∀ q ∈ l, q.2 ≤ p.2) ∧
      l.find? (fun p => l.all (fun q => decide (q.2 ≤ p.2))) = some p := by
  rw [bestLoop_spec]
  have hcongr : l.find? (fun p => decide (0 < p.2) && l.all (fun q => decide (q.2 ≤ p.2)))
      = l.find? (fun p => l.all (fun q => decide (q.2 ≤ p.2))) := by
    apply find?_congr_local
    intro x hx
    have hx0 : (decide (0 < x.2)) = true := by
      simp only [decide_eq_true_eq]
      exact lt_of_lt_of_le Nat.zero_lt_one (hpos x hx)
    rw [hx0, Bool.true_and]
  rw [hcongr]
  obtain ⟨w, hw, hwmax⟩ := exists_argmax l hne
  have hsome : (l.find? (fun p => l.all (fun q => decide (q.2 ≤ p.2)))).isSome := by
    rw [List.find?_isSome]
    exact ⟨w, hw, by rw [List.all_eq_true]; intro q hq; simp [hwmax q hq]⟩
  rcases hf : l.find? (fun p => l.all (fun q => decide (q.2 ≤ p.2))) with _ | p
  · rw [hf] at hsome
    simp at hsome
  · refine ⟨p, List.mem_of_find?_eq_some hf, by rw [hf], ?_, hf⟩
    have hall := List.find?_some hf
    rw [List.all_eq_true] at hall
    intro q hq
    simpa using hall q hq

/-! ## Forecast bucketing lemmas -/

theorem groupStepF_eq_set (m : JsObj (List ForecastItem)) (it : ForecastItem) :
    groupStepF m it =
      m.set (dateStrOf it.dt) ((m.lookup (dateStrOf it.dt)).getD [] ++ [it]) := by
  unfold groupStepF
  dsimp only
  rcases h : m.lookup (dateStrOf it.dt) with _ | l <;> simp [h]

theorem keysOf_groupStepF (m : JsObj (List ForecastItem)) (it : ForecastItem) :
    (groupStepF m it).keysOf =
      if dateStrOf it.dt ∈ m.keysOf then m.keysOf
      else m.keysOf ++ [dateStrOf it.dt] := by
  rw [groupStepF_eq_set, keysOf_set_mem]

theorem foldl_groupStepF_keysOf (items : List ForecastItem) :
    ∀ (m : JsObj (List ForecastItem)),
      (items.foldl groupStepF m).keysOf =
        items.foldl
          (fun acc it => if dateStrOf it.dt ∈ acc then acc
            else acc ++ [dateStrOf it.dt]) m.keysOf := by
  induction items with
  | nil => intro m; rfl
  | cons it t ih =>
    intro m
    rw [List.foldl_cons, List.foldl_cons, ih, keysOf_groupStepF]

theorem forecastGroups_keysOf (items : List ForecastItem) :
    (items.foldl groupStepF JsObj.empty).keysOf =
      dedupKeepFirst (items.map (fun it => dateStrOf it.dt)) := by
  unfold dedupKeepFirst
  rw [List.foldl_map, foldl_groupStepF_keysOf]
  rfl

theorem foldl_groupStepF_bucket (items : List ForecastItem) :
    ∀ (m : JsObj (List ForecastItem)) (kk : String),
      ((items.foldl groupStepF m).lookup kk).getD [] =
        (m.lookup kk).getD [] ++ items.filter (fun it => dateStrOf it.dt == kk) := by
  induction items with
  | nil => intro m kk; simp
  | cons it t ih =>
    intro m kk
    rw [List.foldl_cons, ih, List.filter_cons]
    rw [groupStepF_eq_set, JsObj.lookup_set]
    by_cases h : kk = dateStrOf it.dt
    · subst h
      rw [if_pos rfl]
      simp
    · rw [if_neg h]
      have hb : (dateStrOf it.dt == kk) = false :=
        beq_eq_false_iff_ne.mpr (fun he => h he.symm)
      rw [hb]
      simp

theorem mem_dedupKeepFirst (l : List String) (x : String) :
    x ∈ dedupKeepFirst l ↔ x ∈ l := by
  unfold dedupKeepFirst
  have haux : ∀ (l' : List String) (acc : List String),
      x ∈ l'.foldl (fun acc d => if d ∈ acc then acc else acc ++ [d]) acc
        ↔ x ∈ acc ∨ x ∈ l' := by
    intro l'
    induction l' with
    | nil => intro acc; simp
    | cons d t ih =>
      intro acc
      rw [List.foldl_cons, ih]
      by_cases h : d ∈ acc
      · rw [if_pos h]
        constructor
        · rintro (ha | ht)
          · exact Or.inl ha
          · exact Or.inr (List.mem_cons_of_mem _ ht)
        · rintro (ha | ht)
          · exact Or.inl ha
          · rcases List.mem_cons.mp ht with rfl | ht'
            · exact Or.inl h
            · exact Or.inr ht'
      · rw [if_neg h]
        constructor
        · rintro (ha | ht)
          · rcases List.mem_append.mp ha with h' | h'
            · exact Or.inl h'
            · exact Or.inr (List.mem_cons.mpr (Or.inl (List.mem_singleton.mp h')))
          · exact Or.inr (List.mem_cons_of_mem _ ht)
        · rintro (ha | ht)
          · exact Or.inl (List.mem_append.mpr (Or.inl ha))
          · rcases List.mem_cons.mp ht with rfl | ht'
            · exact Or.inl (List.mem_append.mpr (Or.inr (List.mem_singleton.mpr rfl)))
            · exact Or.inr ht'
  rw [haux]
  simp

theorem processForecastData_eq (todayStr : String) (items : List ForecastItem) :
    processForecastData todayStr items =
      ((List.insertionSort strLe
        ((dedupKeepFirst (items.map (fun it => dateStrOf it.dt))).filter
          (fun d => strLeB todayStr d))).take 4).map
        (fun date =>
          { date := date,
            temp_min := (dayStats (items.filter (fun it => dateStrOf it.dt == date))).minT,
            temp_max := (dayStats (items.filter (fun it => dateStrOf it.dt == date))).maxT,
            condition := bestCondition
              (dayStats (items.filter (fun it => dateStrOf it.dt == date))).counts }) := by
  unfold processForecastData
  dsimp only
  have hdates : List.insertionSort strLe
      (((items.foldl groupStepF JsObj.empty).keysInOrder).filter
        (fun d => strLeB todayStr d))
      = List.insertionSort strLe
        ((dedupKeepFirst (items.map (fun it => dateStrOf it.dt))).filter
          (fun d => strLeB todayStr d)) := by
    have h1 : List.Perm ((items.foldl groupStepF JsObj.empty).keysInOrder)
        ((items.foldl groupStepF JsObj.empty).keysOf) := JsObj.keysInOrder_perm _
    rw [forecastGroups_keysOf] at h1
    refine List.eq_of_perm_of_sorted ?_ (List.sorted_insertionSort strLe _)
      (List.sorted_insertionSort strLe _)
    exact List.Perm.trans (List.perm_insertionSort _ _)
      (List.Perm.trans (h1.filter _) (List.Perm.symm (List.perm_insertionSort _ _)))
  rw [hdates]
  apply List.map_congr_left
  intro date _
  have hb := foldl_groupStepF_bucket items JsObj.empty date
  have he : ((JsObj.empty : JsObj (List ForecastItem)).lookup date) = none := rfl
  rw [he] at hb
  simp only [Option.getD_none, List.nil_append] at hb
  rw [hb]

theorem processForecastData_mem (todayStr : String) (items : List ForecastItem)
    (d : DayForecast) (hd : d ∈ processForecastData todayStr items) :
    items.filter (fun it => dateStrOf it.dt == d.date) ≠ [] ∧
      d.temp_min = (dayStats (items.filter (fun it => dateStrOf it.dt == d.date))).minT ∧
      d.temp_max = (dayStats (items.filter (fun it => dateStrOf it.dt == d.date))).maxT ∧
      d.condition = bestCondition
        (dayStats (items.filter (fun it => dateStrOf it.dt == d.date))).counts := by
  rw [processForecastData_eq] at hd
  obtain ⟨date, hdate, rfl⟩ := List.mem_map.mp hd
  refine ⟨?_, rfl, rfl, rfl⟩
  have h1 : date ∈ List.insertionSort strLe
      ((dedupKeepFirst (items.map (fun it => dateStrOf it.dt))).filter
        (fun d => strLeB todayStr d)) := List.mem_of_mem_take hdate
  have h2 := (List.mem_insertionSort strLe).mp h1
  have h3 := List.mem_of_mem_filter h2
  have h4 := (mem_dedupKeepFirst _ _).mp h3
  obtain ⟨it, hit, hdt⟩ := List.mem_map.mp h4
  have hmem : it ∈ items.filter (fun it' => dateStrOf it'.dt == date) :=
    List.mem_filter.mpr ⟨hit, by simp [hdt]⟩
  exact List.ne_nil_of_mem hmem

/-! ## Extension-splitting lemmas -/

theorem dropWhile_head_not {α : Type} (p : α → Bool) :
    ∀ (l : List α) (c : α) (tl : List α), l.dropWhile p = c :: tl → p c = false
  | [], c, tl, h => by simp [List.dropWhile] at h
  | a :: t, c, tl, h => by
    rw [List.dropWhile_cons] at h
    by_cases hp : p a = true
    · rw [if_pos hp] at h
      exact dropWhile_head_not p t c tl h
    · rw [if_neg hp] at h
      injection h with h1 _
      subst h1
      exact (Bool.not_eq_true _) ▸ hp

theorem extname_split (cs : List Char) (hne : extnameChars cs ≠ []) :
    ∃ stem : List Char, cs = stem ++ extnameChars cs ∧ stem ≠ [] := by
  unfold extnameChars at hne ⊢
  dsimp only at hne ⊢
  split_ifs at hne ⊢ with h1 h2 h3
  · exact absurd rfl hne
  · exact absurd rfl hne
  · exact absurd rfl hne
  · set A := cs.reverse.takeWhile (fun c => !(c == '.')) with hA
    have hsplit := List.takeWhile_append_dropWhile
      (fun c => !(c == '.')) cs.reverse
    rw [← hA] at hsplit
    have hd_ne : cs.reverse.dropWhile (fun c => !(c == '.')) ≠ [] := by
      intro h0
      apply h1
      rw [h0, List.append_nil] at hsplit
      rw [hsplit]
    obtain ⟨c, tl, hct⟩ := List.exists_cons_of_ne_nil hd_ne
    have hc : (fun c => !(c == '.')) c = false :=
      dropWhile_head_not _ cs.reverse c tl hct
    have hc' : c = '.' := by simpa using hc
    subst hc'
    have hrev : cs.reverse = A ++ '.' :: tl := by
      rw [← hct]
      exact hsplit.symm
    refine ⟨tl.reverse, ?_, ?_⟩
    · apply List.reverse_injective
      rw [hrev]
      simp [List.reverse_append]
    · intro h0
      have htl : tl = [] := by simpa using congrArg List.reverse h0
      apply h2
      rw [hrev, htl]
      simp

theorem suffix_eq_of_length {s1 s2 cs : List Char} (h1 : s1.IsSuffix cs)
    (h2 : s2.IsSuffix cs) (hlen : s1.length = s2.length) : s1 = s2 := by
  obtain ⟨t1, ht1⟩ := h1
  obtain ⟨t2, ht2⟩ := h2
  have hteq : t1.length = t2.length := by
    have e1 := congrArg List.length ht1
    have e2 := congrArg List.length ht2
    rw [List.length_append] at e1 e2
    omega
  exact List.append_inj_right (ht1.trans ht2.symm) hteq

theorem string_append_data (a b : String) : (a ++ b).data = a.data ++ b.data := rfl

/-! ## Claims -/

/-- C1 (amended): for a directory entry whose extension is recognized
case-insensitively, the stem (and hence the emitted title) equals the
filename with the extension removed only when the extension occurs in
lower case in the filename; `path.basename(file, ext)` strips the
lowercased extension case-sensitively, so an entry with a non-lowercase
extension keeps its full name as its stem. -/
theorem c1_title_stripping_amended (f : String)
    (_hrec : isRecognizedFile f = true) :
    (extnameStr f = toLowerStr (extnameStr f) → stemOf f ++ extnameStr f = f) ∧
    (extnameStr f ≠ toLowerStr (extnameStr f) → stemOf f = f) := by
  constructor
  · intro hlow
    apply strData_inj
    rw [string_append_data]
    show jsBasenameChars f.data (toLowerList (extnameChars f.data))
      ++ extnameChars f.data = f.data
    have hlow' : toLowerList (extnameChars f.data) = extnameChars f.data :=
      (congrArg String.data hlow).symm
    rw [hlow']
    by_cases hne : extnameChars f.data = []
    · rw [hne]
      show jsBasenameChars f.data [] ++ [] = f.data
      unfold jsBasenameChars
      rw [if_neg (by rintro ⟨hc, -, -⟩; exact hc rfl)]
      simp
    · obtain ⟨stem, hsteq, hstne⟩ := extname_split f.data hne
      set e := extnameChars f.data with he
      unfold jsBasenameChars
      have hsuf : e.isSuffixOf f.data = true := by
        rw [List.isSuffixOf_iff_suffix]
        exact ⟨stem, hsteq.symm⟩
      have hnecs : e ≠ f.data := by
        intro h0
        have hlen0 := congrArg List.length hsteq
        rw [List.length_append] at hlen0
        rw [h0] at hlen0
        have hz : stem.length = 0 := by omega
        exact hstne (List.length_eq_zero.mp hz)
      rw [if_pos ⟨hne, hnecs, hsuf⟩]
      have hlen : f.data.length - e.length = stem.length := by
        rw [hsteq, List.length_append]
        omega
      rw [hlen, hsteq, List.take_left]
  · intro hdiff
    apply strData_inj
    show jsBasenameChars f.data (toLowerList (extnameChars f.data)) = f.data
    set e := extnameChars f.data with he
    have hcond : ¬(toLowerList e ≠ [] ∧ toLowerList e ≠ f.data
        ∧ (toLowerList e).isSuffixOf f.data) := by
      rintro ⟨hne0, -, hsuf⟩
      apply hdiff
      have hene : e ≠ [] := by
        intro h0
        apply hne0
        rw [h0]
        rfl
      rw [he] at hene
      obtain ⟨stem, hsteq, -⟩ := extname_split f.data hene
      rw [← he] at hsteq
      have hsuf1 : (toLowerList e).IsSuffix f.data :=
        (List.isSuffixOf_iff_suffix).mp hsuf
      have hsuf2 : e.IsSuffix f.data := ⟨stem, hsteq.symm⟩
      have heq := suffix_eq_of_length hsuf1 hsuf2 (by simp [toLowerList])
      exact strData_inj
        (show (extnameStr f).data = (toLowerStr (extnameStr f)).data from heq.symm)
    unfold jsBasenameChars
    rw [if_neg hcond]

/-- C1 witness: a lower-case extension is stripped from the title; an
upper-case one is kept. -/
theorem c1_witness :
    stemOf "a.txt" ++ extnameStr "a.txt" = "a.txt" ∧ stemOf "B.PNG" = "B.PNG" :=
  ⟨(c1_title_stripping_amended "a.txt" (by decide)).1 (by decide),
   (c1_title_stripping_amended "B.PNG" (by decide)).2 (by decide)⟩

/-- C1 counterexample: the recognized entry `A.TXT` is emitted with title
`A.TXT`, not `A` as the claim requires. -/
theorem c1_counterexample :
    (getNewsArticles fsUpperExt).map (fun a => a.title) = ["A.TXT"] ∧
      (["A.TXT"] : List String) ≠ ["A"] :=
  ⟨by decide, by decide⟩

/-- C2 (amended): the emitted articles are ordered by the JavaScript own
property enumeration order of the stem dictionary: stems that are canonical
array indexes come first in ascending numeric order, then the remaining
stems in order of first occurrence in the listing; the emitted list keeps
exactly the stems for which some listed file with that stem has a
recognized extension. -/
theorem c2_output_order_amended (fs : FileSystem) (files : List String)
    (hl : fs.listing = some files)
    (hok : ∀ p ∈ groupList (newsGroups files), ¬ groupReadFails fs p.2) :
    (getNewsArticles fs).map (fun a => a.title) =
      (orderedStems files).filter
        (fun b => files.any (fun f => stemOf f == b && isRecognizedFile f)) := by
  rw [getNewsArticles_titles fs files hl hok, newsGroups_keysInOrder]
  apply List.filter_congr
  intro b _
  have hiff := newsGroups_has_iff files b
  rcases hA : ((((newsGroups files).lookup b).getD {}).textFile.isSome
      || (((newsGroups files).lookup b).getD {}).imageFile.isSome) with _ | _
  · rcases hB : files.any (fun f => stemOf f == b && isRecognizedFile f) with _ | _
    · rfl
    · exfalso
      rw [List.any_eq_true] at hB
      obtain ⟨f, hf, hfb⟩ := hB
      rw [Bool.and_eq_true, beq_iff_eq] at hfb
      have := hiff.mpr ⟨f, hf, hfb.1, hfb.2⟩
      rw [hA] at this
      exact Bool.noConfusion this
  · rcases hB : files.any (fun f => stemOf f == b && isRecognizedFile f) with _ | _
    · exfalso
      obtain ⟨f, hf, h1, h2⟩ := hiff.mp hA
      have : files.any (fun f => stemOf f == b && isRecognizedFile f) = true := by
        rw [List.any_eq_true]
        exact ⟨f, hf, by rw [Bool.and_eq_true, beq_iff_eq]; exact ⟨h1, h2⟩⟩
      rw [hB] at this
      exact Bool.noConfusion this
    · rfl

/-- C2 witness: the amended order theorem applied to a concrete directory. -/
theorem c2_witness :
    (getNewsArticles fsNumericStem).map (fun a => a.title) =
      (orderedStems ["b.txt", "1.txt"]).filter
        (fun b => ["b.txt", "1.txt"].any
          (fun f => stemOf f == b && isRecognizedFile f)) := by
  apply c2_output_order_amended fsNumericStem ["b.txt", "1.txt"] rfl
  intro p hp
  have hgl : groupList (newsGroups ["b.txt", "1.txt"]) =
      [("1", ⟨some "1.txt", none⟩), ("b", ⟨some "b.txt", none⟩)] := by decide
  rw [hgl] at hp
  rintro (⟨f, hf, -⟩ | ⟨f, hf, hr⟩)
  · rcases List.mem_cons.mp hp with rfl | hp2
    · exact Option.noConfusion hf
    · rcases List.mem_cons.mp hp2 with rfl | hp3
      · exact Option.noConfusion hf
      · exact absurd hp3 (List.not_mem_nil p)
  · rcases List.mem_cons.mp hp with rfl | hp2
    · obtain rfl := Option.some.inj hf
      exact absurd hr (by decide)
    · rcases List.mem_cons.mp hp2 with rfl | hp3
      · obtain rfl := Option.some.inj hf
        exact absurd hr (by decide)
      · exact absurd hp3 (List.not_mem_nil p)

/-- C2 counterexample: with listing order `b.txt` then `1.txt`, the emitted
titles are `1` then `b`: a numeric-looking stem is enumerated before an
earlier-listed ordinary stem, so the output is not in first-occurrence
listing order. -/
theorem c2_counterexample :
    fsNumericStem.listing = some ["b.txt", "1.txt"] ∧
    (getNewsArticles fsNumericStem).map (fun a => a.title) = ["1", "b"] ∧
    (["1", "b"] : List String) ≠ ["b", "1"] :=
  ⟨rfl, by decide, by decide⟩

/-- C3 (amended): for a non-empty bucket, the chosen condition is the first
label in the enumeration order of the condition-count dictionary whose
count is maximal (for ordinary non-numeric labels, the label whose first
occurrence in the bucket is earliest among those with maximal count); it
always carries the highest occurrence count, but it need not be the first
label to reach that count while scanning the samples in order. -/
theorem c3_condition_choice_amended (items : List ForecastItem)
    (hne : items ≠ []) :
    ∃ p ∈ pairsOf (dayStats items).counts,
      mostCommonCondition items = some p.1 ∧
      (∀ q ∈ pairsOf (dayStats items).counts, q.2 ≤ p.2) ∧
      (pairsOf (dayStats items).counts).find?
        (fun p => (pairsOf (dayStats items).counts).all
          (fun q => decide (q.2 ≤ p.2))) = some p := by
  have hpos := pairsOf_pos (dayStats items).counts (dayStats_counts_pos items)
  have hne' := pairsOf_ne_nil (dayStats items).counts (dayStats_counts_ne_nil items hne)
  obtain ⟨p, hp, hbl, hmax, hfind⟩ := bestLoop_argmax _ hne' hpos
  exact ⟨p, hp, hbl, hmax, hfind⟩

/-- C3 witness: the amended statement instantiated at the tie bucket. -/
theorem c3_witness :
    ∃ p ∈ pairsOf (dayStats tieItems).counts,
      mostCommonCondition tieItems = some p.1 ∧
      (∀ q ∈ pairsOf (dayStats tieItems).counts, q.2 ≤ p.2) ∧
      (pairsOf (dayStats tieItems).counts).find?
        (fun p => (pairsOf (dayStats tieItems).counts).all
          (fun q => decide (q.2 ≤ p.2))) = some p :=
  c3_condition_choice_amended tieItems (by decide)

/-- C3 counterexample: on the bucket with conditions A, B, B, A the code
chooses A, while the first condition to reach the maximal count two while
scanning in order is B. -/
theorem c3_counterexample :
    (processForecastData "1970-01-01" tieItems).map (fun d => d.condition)
      = [some "A"] ∧
    firstToReachMax (tieItems.map (fun it => it.cond)) = some "B" ∧
    (some "A" : Option String) ≠ some "B" :=
  ⟨by decide, by decide, by decide⟩

/-- C4: a failing directory listing makes both handlers return the empty
sequence, and a failing file read anywhere inside either scan does the
same; no error escapes to the caller. -/
theorem c4_failure_yields_empty (fsN fsA : FileSystem) :
    (fsN.listing = none → getNewsArticles fsN = []) ∧
    (fsA.listing = none → getAnnouncements fsA = []) ∧
    (∀ files, fsN.listing = some files →
      (∃ p ∈ groupList (newsGroups files), groupReadFails fsN p.2) →
      getNewsArticles fsN = []) ∧
    (∀ files f, fsA.listing = some files → f ∈ files →
      (toLowerStr (extnameStr f) == ".txt") = true → fsA.readText f = none →
      getAnnouncements fsA = []) := by
  refine ⟨?_, ?_, ?_, ?_⟩
  · intro h
    unfold getNewsArticles getNewsArticlesE
    rw [h]
  · intro h
    unfold getAnnouncements getAnnouncementsE
    rw [h]
  · rintro files hl ⟨p, hp, hf⟩
    unfold getNewsArticles getNewsArticlesE
    rw [hl]
    dsimp only
    rw [emitArticles_error_of_mem hp hf]
  · intro files f hl hf hx hr
    unfold getAnnouncements getAnnouncementsE
    rw [hl]
    dsimp only
    rw [annLoop_error fsA files f hf hx hr]

/-- C4 witness: a missing directory and a directory with an unreadable text
file both yield empty results from both handlers. -/
theorem c4_witness :
    getNewsArticles fsNoListing = [] ∧ getAnnouncements fsNoListing = [] ∧
    getNewsArticles fsBadRead = [] ∧ getAnnouncements fsBadRead = [] := by
  refine ⟨(c4_failure_yields_empty fsNoListing fsNoListing).1 rfl,
    (c4_failure_yields_empty fsNoListing fsNoListing).2.1 rfl,
    (c4_failure_yields_empty fsBadRead fsBadRead).2.2.1 ["x.txt"] rfl ?_,
    (c4_failure_yields_empty fsBadRead fsBadRead).2.2.2 ["x.txt"] "x.txt" rfl
      (by decide) (by decide) rfl⟩
  refine ⟨("x", ⟨some "x.txt", none⟩), ?_, Or.inr ⟨"x.txt", rfl, rfl⟩⟩
  have : groupList (newsGroups ["x.txt"]) = [("x", ⟨some "x.txt", none⟩)] := by decide
  rw [this]
  exact List.mem_singleton.mpr rfl

/-- C5: the forecast bucketer outputs one record per selected date, the
selected dates being the first at-most-four distinct sample dates at or
after today in ascending string order; fewer qualifying dates yield fewer
records, and an empty input yields an empty output, so no record ever
carries an infinite temperature sentinel. -/
theorem c5_day_selection (todayStr : String) (items : List ForecastItem) :
    (processForecastData todayStr items).map (fun d => d.date) =
      (List.insertionSort strLe
        ((dedupKeepFirst (items.map (fun it => dateStrOf it.dt))).filter
          (fun d => strLeB todayStr d))).take 4 ∧
    List.Sorted strLe ((processForecastData todayStr items).map (fun d => d.date)) ∧
    (items = [] → processForecastData todayStr items = []) ∧
    (∀ d ∈ processForecastData todayStr items,
      d.temp_min ≠ JsNum.posInf ∧ d.temp_min ≠ JsNum.negInf ∧
      d.temp_max ≠ JsNum.posInf ∧ d.temp_max ≠ JsNum.negInf) := by
  have hmap : (processForecastData todayStr items).map (fun d => d.date) =
      (List.insertionSort strLe
        ((dedupKeepFirst (items.map (fun it => dateStrOf it.dt))).filter
          (fun d => strLeB todayStr d))).take 4 := by
    rw [processForecastData_eq, List.map_map]
    have : ((fun (d : DayForecast) => d.date) ∘ (fun date =>
        ({ date := date,
           temp_min := (dayStats (items.filter (fun it => dateStrOf it.dt == date))).minT,
           temp_max := (dayStats (items.filter (fun it => dateStrOf it.dt == date))).maxT,
           condition := bestCondition
             (dayStats (items.filter (fun it => dateStrOf it.dt == date))).counts }
          : DayForecast))) = fun date => date := rfl
    rw [this]
    simp
  refine ⟨hmap, ?_, ?_, ?_⟩
  · rw [hmap]
    have hs := List.sorted_insertionSort strLe
      ((dedupKeepFirst (items.map (fun it => dateStrOf it.dt))).filter
        (fun d => strLeB todayStr d))
    exact hs.sublist (List.take_sublist _ _)
  · intro h
    rw [h]
    rfl
  · intro d hd
    obtain ⟨hne, hmin, hmax, _⟩ := processForecastData_mem todayStr items d hd
    obtain ⟨q1, hq1, _, _⟩ := dayStats_min _ hne
    obtain ⟨q2, hq2, _, _⟩ := dayStats_max _ hne
    rw [hmin, hq1, hmax, hq2]
    refine ⟨?_, ?_, ?_, ?_⟩ <;> intro h <;> exact JsNum.noConfusion h

/-- C5 witness: the empty input and a two-day input instantiate the
selection facts. -/
theorem c5_witness :
    processForecastData "1970-01-01" ([] : List ForecastItem) = [] ∧
    (⟨"1970-01-01", JsNum.num 70, JsNum.num 70, some "Clear"⟩ : DayForecast).temp_min
      ≠ JsNum.posInf := by
  constructor
  · exact (c5_day_selection "1970-01-01" []).2.2.1 rfl
  · exact ((c5_day_selection "1970-01-01" twoDayItems).2.2.2
      ⟨"1970-01-01", JsNum.num 70, JsNum.num 70, some "Clear"⟩ (by decide)).1

/-- C6: every output record's minimum and maximum temperatures are the
minimum and maximum sample temperatures of its day bucket, hence the
minimum never exceeds the maximum. -/
theorem c6_temperature_bounds (todayStr : String) (items : List ForecastItem)
    (d : DayForecast) (hd : d ∈ processForecastData todayStr items) :
    ∃ q1 q2 : Rat,
      d.temp_min = JsNum.num q1 ∧ d.temp_max = JsNum.num q2 ∧
      (∃ it ∈ items.filter (fun it => dateStrOf it.dt == d.date), it.temp = q1) ∧
      (∃ it ∈ items.filter (fun it => dateStrOf it.dt == d.date), it.temp = q2) ∧
      (∀ it ∈ items.filter (fun it => dateStrOf it.dt == d.date),
        q1 ≤ it.temp ∧ it.temp ≤ q2) ∧
      q1 ≤ q2 := by
  obtain ⟨hne, hmin, hmax, _⟩ := processForecastData_mem todayStr items d hd
  obtain ⟨q1, hq1, hq1mem, hq1lb⟩ := dayStats_min _ hne
  obtain ⟨q2, hq2, hq2mem, hq2ub⟩ := dayStats_max _ hne
  refine ⟨q1, q2, hmin.trans hq1, hmax.trans hq2, hq1mem, hq2mem,
    fun it hit => ⟨hq1lb it hit, hq2ub it hit⟩, ?_⟩
  obtain ⟨w, hw, hwq⟩ := hq1mem
  exact hwq ▸ hq2ub w hw

/-- C6 witness: the bounds instantiated at a concrete record of a two-day
input. -/
theorem c6_witness :
    ∃ q1 q2 : Rat,
      (⟨"1970-01-01", JsNum.num 70, JsNum.num 70, some "Clear"⟩ : DayForecast).temp_min
        = JsNum.num q1 ∧
      (⟨"1970-01-01", JsNum.num 70, JsNum.num 70, some "Clear"⟩ : DayForecast).temp_max
        = JsNum.num q2 ∧
      (∃ it ∈ twoDayItems.filter (fun it => dateStrOf it.dt ==
        (⟨"1970-01-01", JsNum.num 70, JsNum.num 70, some "Clear"⟩ : DayForecast).date),
        it.temp = q1) ∧
      (∃ it ∈ twoDayItems.filter (fun it => dateStrOf it.dt ==
        (⟨"1970-01-01", JsNum.num 70, JsNum.num 70, some "Clear"⟩ : DayForecast).date),
        it.temp = q2) ∧
      (∀ it ∈ twoDayItems.filter (fun it => dateStrOf it.dt ==
        (⟨"1970-01-01", JsNum.num 70, JsNum.num 70, some "Clear"⟩ : DayForecast).date),
        q1 ≤ it.temp ∧ it.temp ≤ q2) ∧
      q1 ≤ q2 :=
  c6_temperature_bounds "1970-01-01" twoDayItems
    ⟨"1970-01-01", JsNum.num 70, JsNum.num 70, some "Clear"⟩ (by decide)

/-- C7: the announcements handler returns exactly the trimmed contents of
the listing's text files whose trimmed length lies in the inclusive range
one to one hundred, as content records in listing order. -/
theorem c7_announcement_filter (fs : FileSystem) (files : List String)
    (hl : fs.listing = some files)
    (hok : ∀ f ∈ files, (toLowerStr (extnameStr f) == ".txt") = true →
      (fs.readText f).isSome) :
    getAnnouncements fs = announcementsSpec fs files := by
  unfold getAnnouncements getAnnouncementsE
  rw [hl]
  dsimp only
  rw [annLoop_ok fs files hok]

/-- C7 witness: a blank file and an over-long file are excluded, a file
whose trimmed content has exactly one hundred characters is included, a
non-text entry is ignored. -/
theorem c7_witness :
    getAnnouncements fsAnnounceDir = [⟨hundredChars⟩] ∧
    utf16Len hundredChars = 100 :=
  ⟨(c7_announcement_filter fsAnnounceDir
      ["empty.txt", "long.txt", "exact.txt", "img.png"] rfl (by decide)).trans
    (by decide), by decide⟩

/-- C8: over every readable directory and every stem, as grouped by the
scan: when the stem's group holds both a text and an image file the handler
returns exactly one article for that stem, titled by the stem, whose
description is the trimmed text content and whose image is the data-URI of
the image bytes; when the group holds only an image file the one article
for the stem has an empty description and the data-URI image; when it holds
only a text file the one article has the trimmed content and a null
image. -/
theorem c8_article_shapes (fs : FileSystem) (files : List String)
    (b : String) (hl : fs.listing = some files)
    (hok : ∀ p ∈ groupList (newsGroups files), ¬ groupReadFails fs p.2) :
    (∀ tf imf txt bytes,
      ((newsGroups files).lookup b).getD {}
          = { textFile := some tf, imageFile := some imf } →
      fs.readText tf = some txt → fs.readBytes imf = some bytes →
      (getNewsArticles fs).filter (fun x => x.title == b) =
        [{ type := "article", title := b, description := jsTrim txt,
           imagePath := some (newsImageData imf bytes) }]) ∧
    (∀ imf bytes,
      ((newsGroups files).lookup b).getD {}
          = { textFile := none, imageFile := some imf } →
      fs.readBytes imf = some bytes →
      (getNewsArticles fs).filter (fun x => x.title == b) =
        [{ type := "article", title := b, description := "",
           imagePath := some (newsImageData imf bytes) }]) ∧
    (∀ tf txt,
      ((newsGroups files).lookup b).getD {}
          = { textFile := some tf, imageFile := none } →
      fs.readText tf = some txt →
      (getNewsArticles fs).filter (fun x => x.title == b) =
        [{ type := "article", title := b, description := jsTrim txt,
           imagePath := none }]) := by
  refine ⟨?_, ?_, ?_⟩
  · intro tf imf txt bytes hgd ht hi
    rcases hlk : (newsGroups files).lookup b with _ | g
    · rw [hlk, Option.getD_none] at hgd
      simp at hgd
    · rw [hlk, Option.getD_some] at hgd
      subst hgd
      exact getNewsArticles_filter_stem fs files b _ _ hl hok hlk
        (emitGroup_both fs b tf imf txt bytes ht hi)
  · intro imf bytes hgd hi
    rcases hlk : (newsGroups files).lookup b with _ | g
    · rw [hlk, Option.getD_none] at hgd
      simp at hgd
    · rw [hlk, Option.getD_some] at hgd
      subst hgd
      exact getNewsArticles_filter_stem fs files b _ _ hl hok hlk
        (emitGroup_image_only fs b imf bytes hi)
  · intro tf txt hgd ht
    rcases hlk : (newsGroups files).lookup b with _ | g
    · rw [hlk, Option.getD_none] at hgd
      simp at hgd
    · rw [hlk, Option.getD_some] at hgd
      subst hgd
      exact getNewsArticles_filter_stem fs files b _ _ hl hok hlk
        (emitGroup_text_only fs b tf txt ht)

/-- C8 witness: in a directory also holding an unrecognized entry, the stem
with text and image, the image-only stem and the text-only stem each yield
exactly one article of the claimed shape. -/
theorem c8_witness :
    (getNewsArticles fsMixedDir).filter (fun x => x.title == "a") =
      [{ type := "article", title := "a", description := "hello",
         imagePath := some (newsImageData "a.jpg" [1, 2, 3]) }] ∧
    (getNewsArticles fsMixedDir).filter (fun x => x.title == "z") =
      [{ type := "article", title := "z", description := "",
         imagePath := some (newsImageData "z.png" [9]) }] ∧
    (getNewsArticles fsMixedDir).filter (fun x => x.title == "c") =
      [{ type := "article", title := "c", description := "hi",
         imagePath := none }] := by
  have hok : ∀ p ∈ groupList
      (newsGroups ["a.txt", "a.jpg", "z.png", "c.txt", "notes.pdf"]),
      ¬ groupReadFails fsMixedDir p.2 :=
    anyStem_readsOk fsMixedDir _ (by decide)
  refine ⟨?_, ?_, ?_⟩
  · have h := (c8_article_shapes fsMixedDir
      ["a.txt", "a.jpg", "z.png", "c.txt", "notes.pdf"] "a" rfl hok).1
      "a.txt" "a.jpg" "  hello  " [1, 2, 3] (by decide) rfl rfl
    rw [h]
    decide
  · exact (c8_article_shapes fsMixedDir
      ["a.txt", "a.jpg", "z.png", "c.txt", "notes.pdf"] "z" rfl hok).2.1
      "z.png" [9] (by decide) rfl
  · have h := (c8_article_shapes fsMixedDir
      ["a.txt", "a.jpg", "z.png", "c.txt", "notes.pdf"] "c" rfl hok).2.2
      "c.txt" " hi " (by decide) rfl
    rw [h]
    decide

/-- C9: every record the forecast bucketer outputs carries a non-null
condition, because each selected bucket is non-empty and so some label
attains a positive maximal count. -/
theorem c9_condition_nonnull (todayStr : String) (items : List ForecastItem)
    (d : DayForecast) (hd : d ∈ processForecastData todayStr items) :
    d.condition ≠ none := by
  obtain ⟨hne, _, _, hcond⟩ := processForecastData_mem todayStr items d hd
  have hpos := pairsOf_pos
    (dayStats (items.filter (fun it => dateStrOf it.dt == d.date))).counts
    (dayStats_counts_pos _)
  have hne' := pairsOf_ne_nil
    (dayStats (items.filter (fun it => dateStrOf it.dt == d.date))).counts
    (dayStats_counts_ne_nil _ hne)
  obtain ⟨p, _, hbl, _, _⟩ := bestLoop_argmax _ hne' hpos
  rw [hcond]
  show bestLoop (pairsOf (dayStats (items.filter
    (fun it => dateStrOf it.dt == d.date))).counts) 0 none ≠ none
  rw [hbl]
  exact Option.some_ne_none _

/-- C9 witness: a concrete output record has a non-null condition. -/
theorem c9_witness :
    (⟨"1970-01-01", JsNum.num 70, JsNum.num 70, some "Clear"⟩ : DayForecast).condition
      ≠ none :=
  c9_condition_nonnull "1970-01-01" twoDayItems
    ⟨"1970-01-01", JsNum.num 70, JsNum.num 70, some "Clear"⟩ (by decide)

/-- C10: every emitted news article carries the additional constant field
`type = "article"` beyond the documented title, description and image
fields. -/
theorem c10_type_field (fs : FileSystem) :
    ∀ a ∈ getNewsArticles fs, a.type = "article" := by
  unfold getNewsArticles
  rcases h : getNewsArticlesE fs with _ | l
  · simp
  · unfold getNewsArticlesE at h
    rcases hl : fs.listing with _ | files <;> rw [hl] at h
    · exact Except.noConfusion h
    · exact emitArticles_type h

/-- C10 witness: a concrete emitted article carries the constant type. -/
theorem c10_witness :
    ({ type := "article", title := "1", description := "one",
       imagePath := none } : Article).type = "article" :=
  c10_type_field fsNumericStem _ (by decide)
